import Mathlib

/-!
Verification development for the ImLazy task runner (`parser/parser.go`).

The Go code is shallowly embedded: pure functions become Lean functions,
the stateful execution engine (`runCommandWithVisited`) becomes a
fuel-indexed interpreter threading an explicit `ExecState`, and the
ambient process environment (filesystem fingerprints, dotenv files,
directory existence, per-command exit status) is an explicit `World`
record of oracle functions.  Strings are treated at byte granularity for
ASCII data, which is the domain of every concrete input used here.
-/

namespace ImLazy

/-- Opening brace character, written via its code point. -/
def lbrace : Char := Char.ofNat 123

/-- Closing brace character, written via its code point. -/
def rbrace : Char := Char.ofNat 125

/-- Lower-casing of a string, modelling Go's strings.ToLower on ASCII data. -/
def lowerStr (s : String) : String := String.mk (s.toList.map Char.toLower)

/-- Contiguous-occurrence test on character lists. -/
def listInfixOf (sub l : List Char) : Bool := l.tails.any (fun t => sub.isPrefixOf t)

/-- Go's strings.Contains s sub: sub occurs contiguously inside s. -/
def strContainsStr (s sub : String) : Bool := listInfixOf sub.toList s.toList

/-- Go's strings.Join with a single-space separator. -/
def joinSpace (l : List String) : String := String.intercalate " " l

/-- Go's strings.Join with a comma separator. -/
def joinComma (l : List String) : String := String.intercalate "," l

/-- Leading-segment test on character lists (Go's strings.HasPrefix). -/
def startsWithStr (s lead : String) : Bool := lead.toList.isPrefixOf s.toList

/-- Models filepath.IsAbs on Unix: a path is absolute when it starts with a slash. -/
def isAbsPath (p : String) : Bool := startsWithStr p "/"

/-- Models filepath.Join for the two-component case used by the engine. -/
def joinPath (dir file : String) : String :=
  if dir = "" then file else dir ++ "/" ++ file

/-- Association-list lookup modelling a Go map read. -/
def lookupStr {β : Type} (k : String) : List (String × β) → Option β
  | [] => none
  | (k2, v) :: rest => if k = k2 then some v else lookupStr k rest

/-- First some-valued image, modelling a loop that returns on the first error. -/
def firstSome {α β : Type} (f : α → Option β) : List α → Option β
  | [] => none
  | a :: rest =>
    match f a with
    | some b => some b
    | none => firstSome f rest

/-- Association-list update modelling assignment into a Go map
    (later assignment to an existing key overwrites in place). -/
def setAssoc (l : List (String × String)) (k v : String) : List (String × String) :=
  if l.any (fun p => p.1 = k) then
    l.map (fun p => if p.1 = k then (k, v) else p)
  else l ++ [(k, v)]

/-- PlatformRun from parser.go: a default command list plus per-OS overrides. -/
structure PlatformRun where
  runDefault : List String := []
  byOS : List (String × List String) := []
  deriving DecidableEq

/-- GetForCurrentPlatform from parser.go: the commands for the host OS,
    falling back to the default list when no OS-specific entry exists. -/
def PlatformRun.getForCurrentPlatform (goos : String) (p : PlatformRun) : List String :=
  match lookupStr goos p.byOS with
  | some cmds => cmds
  | none => p.runDefault

/-- Command from parser.go (the task record).  Field names follow the source. -/
structure Command where
  desc : String := ""
  run : PlatformRun := {}
  env : List (String × String) := []
  dep : List String := []
  aliases : List String := []   -- Alias in parser.go; `alias` is reserved in Lean
  watch : List String := []
  ifChanged : List String := []
  dir : String := ""
  timeout : String := ""
  pre : List String := []
  post : List String := []
  postAlways : Bool := false
  retry : Int := 0
  retryDelay : String := ""
  envFile : List String := []
  deriving DecidableEq

/-- Settings from parser.go (the config-include machinery is config loading,
    outside the engine, and is not modelled). -/
structure Settings where
  dfault : String := ""
  parallel : Bool := false
  envFile : List String := []
  deriving DecidableEq

/-- Config from parser.go.  Go's maps are modelled as association lists in a
    fixed order; map iteration order never matters for the claims proved here. -/
structure Config where
  settings : Settings := {}
  vars : List (String × String) := []   -- Variables in parser.go; `variables` is reserved in Lean
  env : List (String × String) := []
  commands : List (String × Command) := []
  configDir : String := ""
  deriving DecidableEq

/-- buildAliasMap from parser.go: an alias maps to the command declaring it. -/
def buildAliasMap (cmds : List (String × Command)) : List (String × String) :=
  cmds.foldl (fun acc nc => acc ++ nc.2.aliases.map (fun a => (a, nc.1))) []

/-- The derived alias map of a configuration. -/
def Config.aliasMapOf (c : Config) : List (String × String) :=
  buildAliasMap c.commands

/-- ResolveCommandName from parser.go: exact command name wins, otherwise the
    alias map, otherwise the input is returned unchanged. -/
def Config.ResolveCommandName (c : Config) (name : String) : String :=
  if (lookupStr name c.commands).isSome then name
  else
    match lookupStr name c.aliasMapOf with
    | some actual => actual
    | none => name

/-- levRec implements the standard Levenshtein recurrence; the dynamic
    programming matrix built by levenshteinDistance in parser.go is exactly a
    memoisation of this recurrence (matrix entry i,j holds the distance of the
    length-i and length-j prefixes; processing from the front computes the same
    value on suffixes).  The fuel argument makes the recursion structural; it is
    always called with enough fuel for the deletion/insertion/substitution
    branches, each of which drops at least one character. -/
def levRec : Nat → List Char → List Char → Nat
  | _, [], b => b.length
  | _, a, [] => a.length
  | 0, a, b => a.length + b.length
  | n + 1, x :: a, y :: b =>
    let cost : Nat := if x = y then 0 else 1
    Nat.min (levRec n a (y :: b) + 1)
      (Nat.min (levRec n (x :: a) b + 1) (levRec n a b + cost))

/-- levenshteinDistance from parser.go on byte strings (ASCII model). -/
def levenshteinDistance (a b : String) : Nat :=
  levRec (a.toList.length + b.toList.length) a.toList b.toList

/-- Loop state of FuzzyMatch from parser.go: bestMatch, bestDistance
    (the Go sentinel -1 becomes none) and the ambiguity flag. -/
structure FuzzyState where
  bestMatch : String
  bestDistance : Option Nat
  ambiguous : Bool
  deriving DecidableEq

/-- One iteration of FuzzyMatch's loop over command names. -/
def fuzzyStepCommand (threshold : Nat) (nameLower : String)
    (st : FuzzyState) (cmdName : String) : FuzzyState :=
  let dist := levenshteinDistance nameLower (lowerStr cmdName)
  if dist ≤ threshold then
    match st.bestDistance with
    | none => { bestMatch := cmdName, bestDistance := some dist, ambiguous := false }
    | some bd =>
      if dist < bd then
        { bestMatch := cmdName, bestDistance := some dist, ambiguous := false }
      else if dist = bd then { st with ambiguous := true }
      else st
  else st

/-- One iteration of FuzzyMatch's loop over alias entries; a tie whose alias
    resolves to the current best match is not ambiguous. -/
def fuzzyStepAlias (threshold : Nat) (nameLower : String)
    (st : FuzzyState) (entry : String × String) : FuzzyState :=
  let dist := levenshteinDistance nameLower (lowerStr entry.1)
  if dist ≤ threshold then
    match st.bestDistance with
    | none => { bestMatch := entry.2, bestDistance := some dist, ambiguous := false }
    | some bd =>
      if dist < bd then
        { bestMatch := entry.2, bestDistance := some dist, ambiguous := false }
      else if dist = bd ∧ st.bestMatch ≠ entry.2 then { st with ambiguous := true }
      else st
  else st

/-- FuzzyMatch from parser.go: scan all command names, then all aliases,
    tracking the closest candidate within the length-based threshold; return
    the best match only when unambiguous, the empty string otherwise. -/
def Config.FuzzyMatch (c : Config) (name : String) : String :=
  let nameLower := lowerStr name
  let threshold : Nat := if name.toList.length > 5 then 3 else 2
  let st0 : FuzzyState := { bestMatch := "", bestDistance := none, ambiguous := false }
  let st1 := (c.commands.map Prod.fst).foldl (fuzzyStepCommand threshold nameLower) st0
  let st2 := c.aliasMapOf.foldl (fuzzyStepAlias threshold nameLower) st1
  if st2.ambiguous ∨ st2.bestDistance = none then "" else st2.bestMatch

/-- The command-name test of findSimilarCommands from parser.go: substring
    containment in either direction, or (for inputs longer than two bytes) the
    input's first two characters as a leading segment of the command name. -/
def similarNameCheck (nameLower cmdLower : String) : Bool :=
  strContainsStr cmdLower nameLower || strContainsStr nameLower cmdLower ||
    (nameLower.toList.length > 2 && startsWithStr cmdLower (String.mk (nameLower.toList.take 2)))

/-- findSimilarCommands from parser.go: command names matched by
    similarNameCheck, then targets of aliases matched by substring containment
    only, skipping targets already collected. -/
def Config.findSimilarCommands (c : Config) (name : String) : List String :=
  let nameLower := lowerStr name
  let fromCmds := (c.commands.map Prod.fst).foldl
    (fun acc cmdName =>
      if similarNameCheck nameLower (lowerStr cmdName) then acc ++ [cmdName] else acc) []
  c.aliasMapOf.foldl
    (fun acc entry =>
      let aliasLower := lowerStr entry.1
      if (strContainsStr aliasLower nameLower || strContainsStr nameLower aliasLower)
          && !(acc.contains entry.2) then
        acc ++ [entry.2]
      else acc) fromCmds

/-- Set-style marking used for the visiting maps (Go writes
    visiting name = true; membership is what the code ever reads). -/
def setMark (v : List String) (x : String) : List String :=
  if x ∈ v then v else v ++ [x]

/-- Set-style unmarking (Go writes visiting name = false). -/
def setUnmark (v : List String) (x : String) : List String :=
  v.filter (fun y => y != x)

/-- checkCircularDeps from parser.go: depth-first walk over literal dep-name
    edges with the call-stack visiting set; returns the name at which a
    revisit was detected, or none.  Go mutates one map, marking before the dep
    loop and unmarking after; passing the extended persistent set to each
    recursive call is the same computation.  The fuel argument makes the
    recursion structural: every recursion level adds a distinct command name to
    the visiting set, so any fuel of at least one plus the number of command
    names outside the visiting set gives the untruncated result
    (checkFuel_stable below). -/
def checkCircularDepsFuel (c : Config) : Nat → String → List String → Option String
  | 0, _, _ => none
  | n + 1, name, visiting =>
    if name ∈ visiting then some name
    else
      match lookupStr name c.commands with
      | none => none
      | some cmd =>
        firstSome (fun dep => checkCircularDepsFuel c n dep (name :: visiting)) cmd.dep

/-- The depth-first circular-dependency check at its adequate fuel. -/
def Config.checkCircularDeps (c : Config) (name : String) (visiting : List String) :
    Option String :=
  checkCircularDepsFuel c (c.commands.length + 1) name visiting

/-- The circular-dependency section of Validate from parser.go: one error
    message per command whose depth-first walk reports a revisit. -/
def Config.circularDepErrors (c : Config) : List String :=
  (c.commands.map Prod.fst).foldl
    (fun acc name =>
      match c.checkCircularDeps name [] with
      | some bad => acc ++ ["circular dependency detected involving: " ++ bad]
      | none => acc) []

/-- The undefined-dependency section of Validate from parser.go. -/
def Config.undefinedDepErrors (c : Config) : List String :=
  c.commands.foldl
    (fun acc nc =>
      nc.2.dep.foldl
        (fun acc2 dep =>
          if (lookupStr dep c.commands).isNone ∧ (lookupStr dep c.aliasMapOf).isNone then
            acc2 ++ ["command " ++ nc.1 ++ " has undefined dependency: " ++ dep]
          else acc2) acc) []

/-- The default-command section of Validate from parser.go. -/
def Config.defaultCommandErrors (c : Config) : List String :=
  if c.settings.dfault ≠ "" ∧ (lookupStr (c.ResolveCommandName c.settings.dfault) c.commands).isNone then
    ["default command " ++ c.settings.dfault ++ " is not defined"]
  else []

/-- The duplicate-alias section of Validate from parser.go. -/
def Config.duplicateAliasErrors (c : Config) : List String :=
  let entries := c.aliasMapOf
  (entries.map Prod.fst).eraseDups.foldl
    (fun acc a =>
      let owners := (entries.filter (fun e => e.1 = a)).map Prod.snd
      if owners.length > 1 then
        acc ++ ["alias " ++ a ++ " is used by multiple commands: " ++ joinComma owners]
      else acc) []

/-- Validate from parser.go: the four error sections in source order. -/
def Config.Validate (c : Config) : List String :=
  c.undefinedDepErrors ++ c.circularDepErrors ++ c.defaultCommandErrors ++
    c.duplicateAliasErrors

/-- A dep edge of the literal dependency graph: b occurs in the dep list that
    the command table stores under a. -/
def depEdge (c : Config) (a b : String) : Prop :=
  ∃ cmd, lookupStr a c.commands = some cmd ∧ b ∈ cmd.dep

/-- An edge path starting at a and then visiting the listed nodes in order. -/
def chainFrom (c : Config) : String → List String → Prop
  | _, [] => True
  | a, b :: l => depEdge c a b ∧ chainFrom c b l

/-- The literal dependency graph contains a cycle: a nonempty edge path from
    some node back to itself. -/
def hasCycle (c : Config) : Prop := ∃ a l, chainFrom c a (l ++ [a])

theorem lookupStr_some_mem_keys {β : Type} {l : List (String × β)} {k : String} {v : β}
    (h : lookupStr k l = some v) : k ∈ l.map Prod.fst := by
  induction l with
  | nil => simp [lookupStr] at h
  | cons p t ih =>
    obtain ⟨k2, v2⟩ := p
    by_cases hk : k = k2
    · simp [hk]
    · simp only [lookupStr, if_neg hk] at h
      simp [ih h]

theorem firstSome_congr {α β : Type} {f g : α → Option β} (l : List α)
    (h : ∀ a ∈ l, f a = g a) : firstSome f l = firstSome g l := by
  induction l with
  | nil => rfl
  | cons a t ih =>
    have ha := h a (by simp)
    simp only [firstSome, ha]
    cases g a with
    | some b => rfl
    | none => exact ih (fun x hx => h x (by simp [hx]))

theorem firstSome_isSome_exists {α β : Type} {f : α → Option β} {l : List α}
    (h : (firstSome f l).isSome) : ∃ a ∈ l, (f a).isSome := by
  induction l with
  | nil => simp [firstSome] at h
  | cons a t ih =>
    simp only [firstSome] at h
    cases hf : f a with
    | some b => exact ⟨a, by simp, by simp [hf]⟩
    | none =>
      rw [hf] at h
      obtain ⟨x, hx, hsx⟩ := ih h
      exact ⟨x, by simp [hx], hsx⟩

theorem firstSome_isSome_of_mem {α β : Type} {f : α → Option β} {l : List α} {a : α}
    (ha : a ∈ l) (h : (f a).isSome) : (firstSome f l).isSome := by
  induction l with
  | nil => cases ha
  | cons b t ih =>
    simp only [firstSome]
    cases hf : f b with
    | some c => simp
    | none =>
      rcases List.mem_cons.mp ha with rfl | hta
      · rw [hf] at h; simp at h
      · exact ih hta

theorem filter_mono_length {p q : String → Bool} (l : List String)
    (h : ∀ a, p a = true → q a = true) :
    (l.filter p).length ≤ (l.filter q).length := by
  induction l with
  | nil => simp
  | cons a t ih =>
    by_cases hp : p a = true
    · rw [List.filter_cons_of_pos hp, List.filter_cons_of_pos (h a hp)]
      simpa using ih
    · rw [List.filter_cons_of_neg (by simpa using hp)]
      by_cases hq : q a = true
      · rw [List.filter_cons_of_pos hq]
        exact Nat.le_succ_of_le ih
      · rw [List.filter_cons_of_neg (by simpa using hq)]
        exact ih

theorem filter_cons_mem_lt {l v : List String} {name : String}
    (hmem : name ∈ l) (hnv : name ∉ v) :
    (l.filter (fun k => !(decide (k ∈ name :: v)))).length <
      (l.filter (fun k => !(decide (k ∈ v)))).length := by
  induction l with
  | nil => cases hmem
  | cons a t ih =>
    by_cases ha : a = name
    · subst ha
      rw [List.filter_cons_of_neg (by simp), List.filter_cons_of_pos (by simp [hnv])]
      have hmono : (t.filter (fun k => !(decide (k ∈ a :: v)))).length ≤
          (t.filter (fun k => !(decide (k ∈ v)))).length := by
        apply filter_mono_length
        intro x hx
        simp only [Bool.not_eq_true', decide_eq_false_iff_not] at hx ⊢
        intro hxv
        exact hx (List.mem_cons_of_mem _ hxv)
      simp only [List.length_cons]
      omega
    · have hmemt : name ∈ t := by
        rcases List.mem_cons.mp hmem with h | h
        · exact absurd h.symm ha
        · exact h
      by_cases hav : a ∈ v
      · rw [List.filter_cons_of_neg (by simp [hav]), List.filter_cons_of_neg (by simp [hav])]
        exact ih hmemt
      · rw [List.filter_cons_of_pos (by simp [hav, ha]), List.filter_cons_of_pos (by simp [hav])]
        simpa using ih hmemt

/-- Fuel bound below which the depth-first walk may be truncated: one more than
    the number of command names outside the visiting set. -/
def visitBound (c : Config) (visiting : List String) : Nat :=
  ((c.commands.map Prod.fst).filter (fun k => !(decide (k ∈ visiting)))).length + 1

theorem checkFuel_stable (c : Config) :
    ∀ m₁ m₂ name visiting,
      visitBound c visiting ≤ m₁ → visitBound c visiting ≤ m₂ →
      checkCircularDepsFuel c m₁ name visiting = checkCircularDepsFuel c m₂ name visiting := by
  intro m₁
  induction m₁ with
  | zero =>
    intro m₂ name visiting h1 _
    simp [visitBound] at h1
  | succ a ih =>
    intro m₂ name visiting h1 h2
    match m₂ with
    | 0 => simp [visitBound] at h2
    | b + 1 =>
      simp only [checkCircularDepsFuel]
      by_cases hv : name ∈ visiting
      · simp [hv]
      · rw [if_neg hv, if_neg hv]
        cases hc : lookupStr name c.commands with
        | none => rfl
        | some cmd =>
          apply firstSome_congr
          intro dep _
          have hdec := filter_cons_mem_lt (lookupStr_some_mem_keys hc) hv
          have hb1 : visitBound c (name :: visiting) ≤ a := by
            simp only [visitBound] at h1 ⊢
            omega
          have hb2 : visitBound c (name :: visiting) ≤ b := by
            simp only [visitBound] at h2 ⊢
            omega
          exact ih b dep (name :: visiting) hb1 hb2

theorem chainFrom_extend {c : Config} :
    ∀ (l : List String) (a x y : String),
      chainFrom c a (l ++ [x]) → depEdge c x y → chainFrom c a (l ++ [x, y]) := by
  intro l
  induction l with
  | nil =>
    intro a x y h he
    exact ⟨h.1, he, trivial⟩
  | cons b t ih =>
    intro a x y h he
    exact ⟨h.1, ih b x y h.2 he⟩

theorem checkFuel_sound (c : Config) :
    ∀ (fuel : Nat) (name : String) (visiting : List String),
      (∀ v ∈ visiting, ∃ l, chainFrom c v (l ++ [name])) →
      (checkCircularDepsFuel c fuel name visiting).isSome → hasCycle c := by
  intro fuel
  induction fuel with
  | zero =>
    intro name visiting _ h
    simp [checkCircularDepsFuel] at h
  | succ n ih =>
    intro name visiting hinv h
    simp only [checkCircularDepsFuel] at h
    by_cases hv : name ∈ visiting
    · obtain ⟨l, hl⟩ := hinv name hv
      exact ⟨name, l, hl⟩
    · rw [if_neg hv] at h
      cases hc : lookupStr name c.commands with
      | none => rw [hc] at h; simp at h
      | some cmd =>
        rw [hc] at h
        obtain ⟨dep, hdep, hsome⟩ := firstSome_isSome_exists h
        apply ih dep (name :: visiting) ?_ hsome
        intro v hv2
        rcases List.mem_cons.mp hv2 with rfl | hv3
        · exact ⟨[], ⟨cmd, hc, hdep⟩, trivial⟩
        · obtain ⟨l, hl⟩ := hinv v hv3
          have := chainFrom_extend l v name dep hl ⟨cmd, hc, hdep⟩
          exact ⟨l ++ [name], by simpa using this⟩

theorem checkFuel_complete (c : Config) :
    ∀ (l : List String) (x0 : String) (visiting : List String) (lastN : String),
      chainFrom c x0 l → l.getLast? = some lastN →
      (lastN ∈ visiting ∨ lastN ∈ x0 :: l.dropLast) →
      ∀ m, l.length + 1 ≤ m → (checkCircularDepsFuel c m x0 visiting).isSome := by
  intro l
  induction l with
  | nil =>
    intro x0 visiting lastN _ hlast
    simp at hlast
  | cons x1 l' ih =>
    intro x0 visiting lastN hchain hlast hcond m hm
    obtain ⟨m', rfl⟩ : ∃ m', m = m' + 1 := ⟨m - 1, by omega⟩
    simp only [checkCircularDepsFuel]
    by_cases hv : x0 ∈ visiting
    · simp [hv]
    · rw [if_neg hv]
      obtain ⟨hedge, hchain'⟩ := hchain
      obtain ⟨cmd, hc, hdep⟩ := hedge
      rw [hc]
      apply firstSome_isSome_of_mem hdep
      cases l' with
      | nil =>
        have hx1 : x1 = lastN := by simpa using hlast
        subst hx1
        have hmem : x1 ∈ x0 :: visiting := by
          rcases hcond with h | h
          · exact List.mem_cons_of_mem _ h
          · have hx0 : x1 = x0 := by simpa using h
            rw [hx0]
            exact List.mem_cons_self _ _
        obtain ⟨m'', rfl⟩ : ∃ k, m' = k + 1 := ⟨m' - 1, by simp at hm; omega⟩
        simp [checkCircularDepsFuel, hmem]
      | cons x2 l'' =>
        apply ih x1 (x0 :: visiting) lastN hchain' (by simpa using hlast) ?_ m' (by simp at hm ⊢; omega)
        rcases hcond with h | h
        · exact Or.inl (List.mem_cons_of_mem _ h)
        · rw [List.dropLast_cons₂] at h
          rcases List.mem_cons.mp h with rfl | h2
          · exact Or.inl (by simp)
          · exact Or.inr h2

theorem circularDepErrors_foldl_ne_nil (c : Config) :
    ∀ (l : List String) (acc : List String),
      (l.foldl (fun acc name =>
        match c.checkCircularDeps name [] with
        | some bad => acc ++ ["circular dependency detected involving: " ++ bad]
        | none => acc) acc) ≠ [] ↔
      acc ≠ [] ∨ ∃ name ∈ l, (c.checkCircularDeps name []).isSome := by
  intro l
  induction l with
  | nil => intro acc; simp
  | cons a t ih =>
    intro acc
    simp only [List.foldl_cons]
    cases hc : c.checkCircularDeps a [] with
    | some bad =>
      rw [ih]
      constructor
      · intro _
        exact Or.inr ⟨a, by simp, by simp [hc]⟩
      · intro _
        exact Or.inl (by simp)
    | none =>
      rw [ih]
      constructor
      · rintro (h | ⟨x, hx, hsx⟩)
        · exact Or.inl h
        · exact Or.inr ⟨x, by simp [hx], hsx⟩
      · rintro (h | ⟨x, hx, hsx⟩)
        · exact Or.inl h
        · rcases List.mem_cons.mp hx with rfl | hx2
          · rw [hc] at hsx; simp at hsx
          · exact Or.inr ⟨x, hx2, hsx⟩

theorem validate_circular_iff_cycle (c : Config) :
    c.circularDepErrors ≠ [] ↔ hasCycle c := by
  have hmain := circularDepErrors_foldl_ne_nil c (c.commands.map Prod.fst) []
  rw [Config.circularDepErrors, hmain]
  simp only [ne_eq, not_true_eq_false, false_or]
  constructor
  · rintro ⟨name, _, hsome⟩
    exact checkFuel_sound c _ name [] (by simp) hsome
  · rintro ⟨a, l, hchain⟩
    have hlookup : (lookupStr a c.commands).isSome := by
      cases l with
      | nil => obtain ⟨⟨cmd, hc, _⟩, _⟩ := hchain; simp [hc]
      | cons b t => obtain ⟨⟨cmd, hc, _⟩, _⟩ := hchain; simp [hc]
    obtain ⟨cmd, hc⟩ := Option.isSome_iff_exists.mp hlookup
    refine ⟨a, lookupStr_some_mem_keys hc, ?_⟩
    have hbig : (checkCircularDepsFuel c
        (Nat.max ((l ++ [a]).length + 1) (visitBound c [])) a []).isSome := by
      apply checkFuel_complete c (l ++ [a]) a [] a hchain
      · simp
      · exact Or.inr (by simp)
      · exact Nat.le_max_left _ _
    have hvb : visitBound c [] = c.commands.length + 1 := by
      simp [visitBound]
    have hstab := checkFuel_stable c (c.commands.length + 1)
      (Nat.max ((l ++ [a]).length + 1) (visitBound c [])) a []
      (by omega) (by rw [hvb] at *; exact le_trans (le_refl _) (by exact Nat.le_max_right _ _))
    rw [Config.checkCircularDeps, hstab]
    exact hbig


/-- One-node self-reference graph from the validation tests. -/
def selfRefCfg : Config :=
  { commands := [("a", { dep := ["a"], run := { runDefault := ["x"] } })] }

/-- Three-node dependency cycle from the validation tests. -/
def chain3Cfg : Config :=
  { commands := [("a", { dep := ["b"] }), ("b", { dep := ["c"] }), ("c", { dep := ["a"] })] }

/-- Acyclic two-node graph from the validation tests. -/
def acyclicCfg : Config :=
  { commands := [("build", { dep := ["format"] }), ("format", {})] }

/-- C4: for every task graph with no cycle in the literal dep-reference graph,
    Validate reports no circular-dependency error; for every graph containing a
    reachable dep cycle, Validate reports one; circular errors appear in the
    Validate output; the one-node self-reference and the three-node chain are
    both reported, and an acyclic graph is not. -/
theorem c4_validate_cycle_iff :
    (∀ c : Config, c.circularDepErrors ≠ [] ↔ hasCycle c) ∧
    (∀ c : Config, ∀ e ∈ c.circularDepErrors, e ∈ c.Validate) ∧
    selfRefCfg.circularDepErrors ≠ [] ∧
    chain3Cfg.circularDepErrors ≠ [] ∧
    acyclicCfg.circularDepErrors = [] := by
  refine ⟨validate_circular_iff_cycle, ?_, by decide, by decide, by decide⟩
  intro c e he
  simp [Config.Validate, List.mem_append, he]

/-- Witness: the circular error of the self-referencing graph is in its
    Validate output, and that graph has a cycle. -/
theorem c4_validate_cycle_iff_witness :
    "circular dependency detected involving: a" ∈ selfRefCfg.Validate ∧
      hasCycle selfRefCfg :=
  ⟨c4_validate_cycle_iff.2.1 selfRefCfg _ (by decide),
    (c4_validate_cycle_iff.1 selfRefCfg).mp c4_validate_cycle_iff.2.2.1⟩



/-- The candidate pool FuzzyMatch scans: every command name (resolving to
    itself) followed by every alias entry (resolving to its command). -/
def fuzzyCandidates (c : Config) : List (String × String) :=
  (c.commands.map (fun nc => (nc.1, nc.1))) ++ c.aliasMapOf

/-- Edit distance of the lowercased input to a candidate's own string. -/
def fuzzyDist (nl : String) (p : String × String) : Nat :=
  levenshteinDistance nl (lowerStr p.1)

/-- Loop invariant of FuzzyMatch over the processed candidate list: when no
    candidate is within the threshold the state is initial; otherwise
    bestDistance is the minimum in-threshold distance, bestMatch the target of
    a minimising candidate, and the ambiguity flag is clear exactly when every
    minimising candidate shares that target. -/
def FuzzyInv (thr : Nat) (nl : String) (done : List (String × String))
    (st : FuzzyState) : Prop :=
  match st.bestDistance with
  | none => st.ambiguous = false ∧ st.bestMatch = "" ∧ ∀ p ∈ done, thr < fuzzyDist nl p
  | some d0 =>
    d0 ≤ thr ∧ (∃ p ∈ done, fuzzyDist nl p = d0 ∧ p.2 = st.bestMatch) ∧
      (∀ p ∈ done, fuzzyDist nl p ≤ thr → d0 ≤ fuzzyDist nl p) ∧
      (st.ambiguous = false ↔ ∀ p ∈ done, fuzzyDist nl p = d0 → p.2 = st.bestMatch)

theorem fuzzyStepCommand_inv {thr : Nat} {nl : String} {done : List (String × String)}
    {a : String} {st : FuzzyState}
    (hnd : ∀ p ∈ done, p.2 ≠ a)
    (hinv : FuzzyInv thr nl done st) :
    FuzzyInv thr nl (done ++ [(a, a)]) (fuzzyStepCommand thr nl st a) := by
  obtain ⟨bm, bd, amb⟩ := st
  have hmem : ∀ {p : String × String}, p ∈ done ++ [(a, a)] → p ∈ done ∨ p = (a, a) := by
    intro p hp
    rcases List.mem_append.mp hp with h | h
    · exact Or.inl h
    · exact Or.inr (by simpa using h)
  by_cases hth : levenshteinDistance nl (lowerStr a) ≤ thr
  · cases bd with
    | none =>
      obtain ⟨hamb, hbm, hall⟩ := hinv
      simp only [fuzzyStepCommand, if_pos hth]
      refine ⟨hth, ⟨(a, a), by simp, rfl, rfl⟩, ?_, ?_⟩
      · intro p hp hple
        rcases hmem hp with h | rfl
        · exact absurd hple (Nat.not_le.mpr (hall _ h))
        · exact Nat.le_refl _
      · constructor
        · intro _ p hp hpd
          rcases hmem hp with h | rfl
          · have := hall _ h; omega
          · rfl
        · intro _; rfl
    | some d0 =>
      obtain ⟨hd0, ⟨p0, hp0, hp0d, hp0t⟩, hmin, hiff⟩ := hinv
      by_cases hlt : levenshteinDistance nl (lowerStr a) < d0
      · simp only [fuzzyStepCommand, if_pos hth, if_pos hlt]
        refine ⟨hth, ⟨(a, a), by simp, rfl, rfl⟩, ?_, ?_⟩
        · intro p hp hple
          rcases hmem hp with h | rfl
          · have := hmin _ h hple; omega
          · exact Nat.le_refl _
        · constructor
          · intro _ p hp hpd
            rcases hmem hp with h | rfl
            · by_cases hq : fuzzyDist nl p ≤ thr
              · have := hmin _ h hq; omega
              · rw [hpd] at hq; exact absurd hth hq
            · rfl
          · intro _; rfl
      · by_cases heq : levenshteinDistance nl (lowerStr a) = d0
        · simp only [fuzzyStepCommand, if_pos hth, if_neg hlt, if_pos heq]
          refine ⟨hd0, ⟨p0, List.mem_append_left _ hp0, hp0d, hp0t⟩, ?_, ?_⟩
          · intro p hp hple
            rcases hmem hp with h | rfl
            · exact hmin _ h hple
            · exact le_of_eq (by simpa [fuzzyDist] using heq.symm)
          · constructor
            · intro h; cases h
            · intro hall
              exfalso
              have haa := hall (a, a) (by simp) (by simpa [fuzzyDist] using heq)
              exact hnd p0 hp0 (by rw [hp0t]; exact haa.symm)
        · have hgt : d0 < levenshteinDistance nl (lowerStr a) := by omega
          simp only [fuzzyStepCommand, if_pos hth, if_neg hlt, if_neg heq]
          refine ⟨hd0, ⟨p0, List.mem_append_left _ hp0, hp0d, hp0t⟩, ?_, ?_⟩
          · intro p hp hple
            rcases hmem hp with h | rfl
            · exact hmin _ h hple
            · exact Nat.le_of_lt (by simpa [fuzzyDist] using hgt)
          · rw [hiff]
            constructor
            · intro h p hp hpd
              rcases hmem hp with hh | rfl
              · exact h _ hh hpd
              · rw [show fuzzyDist nl (a, a) = levenshteinDistance nl (lowerStr a) from rfl] at hpd
                omega
            · intro h p hp hpd
              exact h p (List.mem_append_left _ hp) hpd
  · simp only [fuzzyStepCommand, if_neg hth]
    cases bd with
    | none =>
      obtain ⟨hamb, hbm, hall⟩ := hinv
      refine ⟨hamb, hbm, ?_⟩
      intro p hp
      rcases hmem hp with h | rfl
      · exact hall _ h
      · simpa [fuzzyDist] using Nat.not_le.mp hth
    | some d0 =>
      obtain ⟨hd0, ⟨p0, hp0, hp0d, hp0t⟩, hmin, hiff⟩ := hinv
      refine ⟨hd0, ⟨p0, List.mem_append_left _ hp0, hp0d, hp0t⟩, ?_, ?_⟩
      · intro p hp hple
        rcases hmem hp with h | rfl
        · exact hmin _ h hple
        · exact absurd hple (by simpa [fuzzyDist] using hth)
      · rw [hiff]
        constructor
        · intro h p hp hpd
          rcases hmem hp with hh | rfl
          · exact h _ hh hpd
          · rw [show fuzzyDist nl (a, a) = levenshteinDistance nl (lowerStr a) from rfl] at hpd
            omega
        · intro h p hp hpd
          exact h p (List.mem_append_left _ hp) hpd

theorem fuzzyStepAlias_inv {thr : Nat} {nl : String} {done : List (String × String)}
    {e : String × String} {st : FuzzyState}
    (hinv : FuzzyInv thr nl done st) :
    FuzzyInv thr nl (done ++ [e]) (fuzzyStepAlias thr nl st e) := by
  obtain ⟨bm, bd, amb⟩ := st
  have hmem : ∀ {p : String × String}, p ∈ done ++ [e] → p ∈ done ∨ p = e := by
    intro p hp
    rcases List.mem_append.mp hp with h | h
    · exact Or.inl h
    · exact Or.inr (by simpa using h)
  by_cases hth : levenshteinDistance nl (lowerStr e.1) ≤ thr
  · cases bd with
    | none =>
      obtain ⟨hamb, hbm, hall⟩ := hinv
      simp only [fuzzyStepAlias, if_pos hth]
      refine ⟨hth, ⟨e, by simp, rfl, rfl⟩, ?_, ?_⟩
      · intro p hp hple
        rcases hmem hp with h | rfl
        · exact absurd hple (Nat.not_le.mpr (hall _ h))
        · exact Nat.le_refl _
      · constructor
        · intro _ p hp hpd
          rcases hmem hp with h | rfl
          · have := hall _ h; omega
          · rfl
        · intro _; rfl
    | some d0 =>
      obtain ⟨hd0, ⟨p0, hp0, hp0d, hp0t⟩, hmin, hiff⟩ := hinv
      by_cases hlt : levenshteinDistance nl (lowerStr e.1) < d0
      · simp only [fuzzyStepAlias, if_pos hth, if_pos hlt]
        refine ⟨hth, ⟨e, by simp, rfl, rfl⟩, ?_, ?_⟩
        · intro p hp hple
          rcases hmem hp with h | rfl
          · have := hmin _ h hple; omega
          · exact Nat.le_refl _
        · constructor
          · intro _ p hp hpd
            rcases hmem hp with h | rfl
            · by_cases hq : fuzzyDist nl p ≤ thr
              · have := hmin _ h hq; omega
              · rw [hpd] at hq; exact absurd hth hq
            · rfl
          · intro _; rfl
      · by_cases heq : levenshteinDistance nl (lowerStr e.1) = d0
        · by_cases hbme : bm ≠ e.2
          · have hcond : levenshteinDistance nl (lowerStr e.1) = d0 ∧ bm ≠ e.2 := ⟨heq, hbme⟩
            simp only [fuzzyStepAlias, if_pos hth, if_neg hlt, if_pos hcond]
            refine ⟨hd0, ⟨p0, List.mem_append_left _ hp0, hp0d, hp0t⟩, ?_, ?_⟩
            · intro p hp hple
              rcases hmem hp with h | rfl
              · exact hmin _ h hple
              · exact le_of_eq (by simpa [fuzzyDist] using heq.symm)
            · constructor
              · intro h; cases h
              · intro hall
                exact absurd (hall e (by simp) (by simpa [fuzzyDist] using heq)).symm hbme
          · push_neg at hbme
            have hcond : ¬(levenshteinDistance nl (lowerStr e.1) = d0 ∧ bm ≠ e.2) := by
              intro hc; exact hc.2 hbme
            simp only [fuzzyStepAlias, if_pos hth, if_neg hlt, if_neg hcond]
            refine ⟨hd0, ⟨p0, List.mem_append_left _ hp0, hp0d, hp0t⟩, ?_, ?_⟩
            · intro p hp hple
              rcases hmem hp with h | rfl
              · exact hmin _ h hple
              · exact le_of_eq (by simpa [fuzzyDist] using heq.symm)
            · rw [hiff]
              constructor
              · intro h p hp hpd
                rcases hmem hp with hh | rfl
                · exact h _ hh hpd
                · exact hbme.symm
              · intro h p hp hpd
                exact h p (List.mem_append_left _ hp) hpd
        · have hgt : d0 < levenshteinDistance nl (lowerStr e.1) := by omega
          have hcond : ¬(levenshteinDistance nl (lowerStr e.1) = d0 ∧ bm ≠ e.2) := by
            intro hc; exact heq hc.1
          simp only [fuzzyStepAlias, if_pos hth, if_neg hlt, if_neg hcond]
          refine ⟨hd0, ⟨p0, List.mem_append_left _ hp0, hp0d, hp0t⟩, ?_, ?_⟩
          · intro p hp hple
            rcases hmem hp with h | rfl
            · exact hmin _ h hple
            · exact Nat.le_of_lt (by simpa [fuzzyDist] using hgt)
          · rw [hiff]
            constructor
            · intro h p hp hpd
              rcases hmem hp with hh | rfl
              · exact h _ hh hpd
              · rw [show fuzzyDist nl p = levenshteinDistance nl (lowerStr p.1) from rfl] at hpd
                omega
            · intro h p hp hpd
              exact h p (List.mem_append_left _ hp) hpd
  · simp only [fuzzyStepAlias, if_neg hth]
    cases bd with
    | none =>
      obtain ⟨hamb, hbm, hall⟩ := hinv
      refine ⟨hamb, hbm, ?_⟩
      intro p hp
      rcases hmem hp with h | rfl
      · exact hall _ h
      · simpa [fuzzyDist] using Nat.not_le.mp hth
    | some d0 =>
      obtain ⟨hd0, ⟨p0, hp0, hp0d, hp0t⟩, hmin, hiff⟩ := hinv
      refine ⟨hd0, ⟨p0, List.mem_append_left _ hp0, hp0d, hp0t⟩, ?_, ?_⟩
      · intro p hp hple
        rcases hmem hp with h | rfl
        · exact hmin _ h hple
        · exact absurd hple (by simpa [fuzzyDist] using hth)
      · rw [hiff]
        constructor
        · intro h p hp hpd
          rcases hmem hp with hh | rfl
          · exact h _ hh hpd
          · rw [show fuzzyDist nl p = levenshteinDistance nl (lowerStr p.1) from rfl] at hpd
            omega
        · intro h p hp hpd
          exact h p (List.mem_append_left _ hp) hpd

theorem fuzzyFoldCommands_inv {thr : Nat} {nl : String} :
    ∀ (names : List String) (done : List (String × String)) (st : FuzzyState),
      (∀ p ∈ done, p.2 ∉ names) → names.Nodup →
      FuzzyInv thr nl done st →
      FuzzyInv thr nl (done ++ names.map (fun x => (x, x)))
        (names.foldl (fuzzyStepCommand thr nl) st) := by
  intro names
  induction names with
  | nil =>
    intro done st _ _ h
    simpa using h
  | cons a rest ih =>
    intro done st hfresh hnodup hinv
    have hnd : ∀ p ∈ done, p.2 ≠ a := by
      intro p hp he
      exact hfresh p hp (he ▸ List.mem_cons_self a rest)
    have hstep := fuzzyStepCommand_inv hnd hinv
    have hfresh2 : ∀ p ∈ done ++ [(a, a)], p.2 ∉ rest := by
      intro p hp
      rcases List.mem_append.mp hp with h | h
      · intro hr
        exact hfresh p h (List.mem_cons_of_mem _ hr)
      · have : p = (a, a) := by simpa using h
        subst this
        exact (List.nodup_cons.mp hnodup).1
    have := ih (done ++ [(a, a)]) (fuzzyStepCommand thr nl st a) hfresh2
      (List.nodup_cons.mp hnodup).2 hstep
    simpa [List.append_assoc, List.foldl_cons] using this

theorem fuzzyFoldAliases_inv {thr : Nat} {nl : String} :
    ∀ (entries done : List (String × String)) (st : FuzzyState),
      FuzzyInv thr nl done st →
      FuzzyInv thr nl (done ++ entries) (entries.foldl (fuzzyStepAlias thr nl) st) := by
  intro entries
  induction entries with
  | nil =>
    intro done st h
    simpa using h
  | cons e rest ih =>
    intro done st hinv
    have hstep := fuzzyStepAlias_inv (e := e) hinv
    have := ih (done ++ [e]) (fuzzyStepAlias thr nl st e) hstep
    simpa [List.append_assoc, List.foldl_cons] using this

theorem fuzzyMatch_inv (c : Config) (name : String)
    (hnodup : (c.commands.map Prod.fst).Nodup) :
    FuzzyInv (if name.toList.length > 5 then 3 else 2) (lowerStr name) (fuzzyCandidates c)
      (c.aliasMapOf.foldl
        (fuzzyStepAlias (if name.toList.length > 5 then 3 else 2) (lowerStr name))
        ((c.commands.map Prod.fst).foldl
          (fuzzyStepCommand (if name.toList.length > 5 then 3 else 2) (lowerStr name))
          { bestMatch := "", bestDistance := none, ambiguous := false })) := by
  have h0 : FuzzyInv (if name.toList.length > 5 then 3 else 2) (lowerStr name) []
      ({ bestMatch := "", bestDistance := none, ambiguous := false } : FuzzyState) := by
    exact ⟨rfl, rfl, by simp⟩
  have h1 := fuzzyFoldCommands_inv (c.commands.map Prod.fst) [] _ (by simp) hnodup h0
  have h2 := fuzzyFoldAliases_inv c.aliasMapOf _ _ h1
  have hcand : ([] ++ (c.commands.map Prod.fst).map (fun x => (x, x))) ++ c.aliasMapOf =
      fuzzyCandidates c := by
    simp [fuzzyCandidates, List.map_map]
  rw [hcand] at h2
  exact h2

/-- C5 amended: FuzzyMatch returns the task name t (nonempty) exactly when
    some candidate within the length-based threshold resolves to t, attains
    the minimum candidate distance, and every candidate attaining that minimum
    resolves to t as well; ties among names resolving to the same task are not
    ambiguous.  Command names are assumed distinct (Go map keys) and task
    names nonempty. -/
theorem c5_fuzzyMatch_characterisation (c : Config) (name t : String)
    (hnodup : (c.commands.map Prod.fst).Nodup)
    (hne : ∀ p ∈ fuzzyCandidates c, p.2 ≠ "") :
    (c.FuzzyMatch name = t ∧ t ≠ "") ↔
      ∃ p ∈ fuzzyCandidates c,
        fuzzyDist (lowerStr name) p ≤ (if name.toList.length > 5 then 3 else 2) ∧ p.2 = t ∧
        ∀ q ∈ fuzzyCandidates c,
          fuzzyDist (lowerStr name) q ≤ (if name.toList.length > 5 then 3 else 2) →
          fuzzyDist (lowerStr name) p ≤ fuzzyDist (lowerStr name) q ∧
            (fuzzyDist (lowerStr name) q = fuzzyDist (lowerStr name) p → q.2 = t) := by
  have hinv := fuzzyMatch_inv c name hnodup
  rcases hstate : c.aliasMapOf.foldl
      (fuzzyStepAlias (if name.toList.length > 5 then 3 else 2) (lowerStr name))
      ((c.commands.map Prod.fst).foldl
        (fuzzyStepCommand (if name.toList.length > 5 then 3 else 2) (lowerStr name))
        { bestMatch := "", bestDistance := none, ambiguous := false }) with ⟨bm, bd, amb⟩
  rw [hstate] at hinv
  have hres : c.FuzzyMatch name = if (amb : Prop) ∨ bd = none then "" else bm := by
    rw [Config.FuzzyMatch]
    rw [hstate]
  clear hstate
  cases bd with
  | none =>
    obtain ⟨hamb, hbm, hall⟩ := hinv
    rw [hres]
    simp only [or_true, if_pos]
    constructor
    · rintro ⟨ht, hne2⟩
      exact absurd ht.symm hne2
    · rintro ⟨p, hp, hple, _⟩
      exact absurd hple (Nat.not_le.mpr (hall p hp))
  | some d0 =>
    obtain ⟨hd0, ⟨p0, hp0, hp0d, hp0t⟩, hmin, hiff⟩ := hinv
    dsimp only at hp0t hiff
    cases amb with
    | true =>
      rw [hres]
      simp only [if_pos (Or.inl rfl)]
      constructor
      · rintro ⟨ht, hne2⟩
        exact absurd ht.symm hne2
      · rintro ⟨p, hp, hple, hpt, hforall⟩
        exfalso
        have hdp : fuzzyDist (lowerStr name) p = d0 := by
          have h1 := hmin p hp hple
          have h2 := (hforall p0 hp0 (by rw [hp0d]; exact hd0)).1
          rw [hp0d] at h2
          omega
        have hnot : ¬∀ q ∈ fuzzyCandidates c,
            fuzzyDist (lowerStr name) q = d0 → q.2 = bm := by
          intro hcontra
          simpa using hiff.mpr hcontra
        push_neg at hnot
        obtain ⟨q0, hq0, hq0d, hq0t⟩ := hnot
        have hq0t2 : q0.2 = t := (hforall q0 hq0 (by rw [hq0d]; exact hd0)).2
          (by rw [hq0d, hdp])
        have hp0t2 : p0.2 = t := (hforall p0 hp0 (by rw [hp0d]; exact hd0)).2
          (by rw [hp0d, hdp])
        exact hq0t (by rw [hq0t2, ← hp0t2, hp0t])
    | false =>
      rw [hres]
      have hcond : ¬((false : Bool) = true ∨ some d0 = none) := by simp
      rw [if_neg hcond]
      have hmins := hiff.mp rfl
      constructor
      · rintro ⟨ht, hne2⟩
        subst ht
        refine ⟨p0, hp0, by rw [hp0d]; exact hd0, hp0t, ?_⟩
        intro q hq hqle
        constructor
        · rw [hp0d]
          exact hmin q hq hqle
        · intro hqd
          rw [hp0d] at hqd
          exact hmins q hq hqd
      · rintro ⟨p, hp, hple, hpt, hforall⟩
        have hdp : fuzzyDist (lowerStr name) p = d0 := by
          have h1 := hmin p hp hple
          have h2 := (hforall p0 hp0 (by rw [hp0d]; exact hd0)).1
          rw [hp0d] at h2
          omega
        have : p.2 = bm := hmins p hp hdp
        refine ⟨by rw [← hpt, this], ?_⟩
        rw [← hpt]
        exact hne p hp

/-- A task with an alias at equal edit distance from the input. -/
def c5cfg : Config :=
  { commands := [("build", { aliases := ["bld"], run := { runDefault := ["x"] } })] }

/-- Commands of the spec's own fuzzy-match example. -/
def fmCfg : Config :=
  { commands := [("build", {}), ("test", {}), ("format", {})] }

/-- C5 counterexample: on input bild, the two distinct names build and bld tie
    at the minimum distance 1 (within the threshold 2 for a length-4 input) and
    every candidate is at distance at least 1, yet FuzzyMatch returns build
    rather than no match: a tie among names resolving to the same task is not
    treated as ambiguous. -/
theorem c5_counterexample :
    c5cfg.FuzzyMatch "bild" = "build" ∧
      ("build", "build") ∈ fuzzyCandidates c5cfg ∧
      ("bld", "build") ∈ fuzzyCandidates c5cfg ∧
      "build" ≠ "bld" ∧
      fuzzyDist (lowerStr "bild") ("build", "build") = 1 ∧
      fuzzyDist (lowerStr "bild") ("bld", "build") = 1 ∧
      ((fuzzyCandidates c5cfg).all fun p => 1 ≤ fuzzyDist (lowerStr "bild") p) = true ∧
      (1 : Nat) ≤ 2 := by
  decide

/-- Witness: the characterisation applied to the spec's example
    (tasks build, test, format; input biuld resolves to build). -/
theorem c5_fuzzyMatch_characterisation_witness :
    fmCfg.FuzzyMatch "biuld" = "build" ∧ "build" ≠ "" :=
  (c5_fuzzyMatch_characterisation fmCfg "biuld" "build" (by decide) (by decide)).mpr
    (by decide)



theorem foldl_appendIf_mem (P : String → Bool) :
    ∀ (names acc : List String) (t : String),
      (t ∈ names.foldl (fun acc n => if P n = true then acc ++ [n] else acc) acc) ↔
        t ∈ acc ∨ (t ∈ names ∧ P t = true) := by
  intro names
  induction names with
  | nil => intro acc t; simp
  | cons n rest ih =>
    intro acc t
    simp only [List.foldl_cons]
    by_cases hp : P n = true
    · rw [if_pos hp, ih]
      constructor
      · rintro (h | h)
        · rcases List.mem_append.mp h with h2 | h2
          · exact Or.inl h2
          · have : t = n := by simpa using h2
            subst this
            exact Or.inr ⟨by simp, hp⟩
        · exact Or.inr ⟨List.mem_cons_of_mem _ h.1, h.2⟩
      · rintro (h | ⟨hm, hP⟩)
        · exact Or.inl (List.mem_append_left _ h)
        · rcases List.mem_cons.mp hm with rfl | h2
          · exact Or.inl (List.mem_append_right _ (by simp))
          · exact Or.inr ⟨h2, hP⟩
    · rw [if_neg hp, ih]
      constructor
      · rintro (h | h)
        · exact Or.inl h
        · exact Or.inr ⟨List.mem_cons_of_mem _ h.1, h.2⟩
      · rintro (h | ⟨hm, hP⟩)
        · exact Or.inl h
        · rcases List.mem_cons.mp hm with rfl | h2
          · exact absurd hP hp
          · exact Or.inr ⟨h2, hP⟩

theorem containsStr_iff {l : List String} {s : String} :
    l.contains s = true ↔ s ∈ l := by
  induction l with
  | nil => simp
  | cons a t ih =>
    simp only [List.contains_cons, Bool.or_eq_true, beq_iff_eq, List.mem_cons]
    rw [ih]

theorem foldl_appendGuard_mem (Q : String × String → Bool) :
    ∀ (entries : List (String × String)) (acc : List String) (t : String),
      (t ∈ entries.foldl
        (fun acc e => if (Q e && !(acc.contains e.2)) = true then acc ++ [e.2] else acc) acc) ↔
        t ∈ acc ∨ ∃ e ∈ entries, e.2 = t ∧ Q e = true := by
  intro entries
  induction entries with
  | nil => intro acc t; simp
  | cons e rest ih =>
    intro acc t
    simp only [List.foldl_cons]
    by_cases hq : Q e = true
    · by_cases hc : acc.contains e.2 = true
      · have hguard : (Q e && !(acc.contains e.2)) = false := by
          simp only [hq, Bool.true_and, Bool.not_eq_false']
          exact hc
        rw [hguard, if_neg (by simp), ih]
        constructor
        · rintro (h | h)
          · exact Or.inl h
          · obtain ⟨x, hx, hxt, hxq⟩ := h
            exact Or.inr ⟨x, List.mem_cons_of_mem _ hx, hxt, hxq⟩
        · rintro (h | ⟨x, hx, hxt, hxq⟩)
          · exact Or.inl h
          · rcases List.mem_cons.mp hx with rfl | h2
            · exact Or.inl (by rw [← hxt]; exact containsStr_iff.mp hc)
            · exact Or.inr ⟨x, h2, hxt, hxq⟩
      · have hcf : acc.contains e.2 = false := by simpa using hc
        have hguard : (Q e && !(acc.contains e.2)) = true := by
          simp only [hq, Bool.true_and, Bool.not_eq_true']
          exact hcf
        rw [hguard, if_pos rfl, ih]
        constructor
        · rintro (h | h)
          · rcases List.mem_append.mp h with h2 | h2
            · exact Or.inl h2
            · have : t = e.2 := by simpa using h2
              exact Or.inr ⟨e, by simp, this.symm, hq⟩
          · obtain ⟨x, hx, hxt, hxq⟩ := h
            exact Or.inr ⟨x, List.mem_cons_of_mem _ hx, hxt, hxq⟩
        · rintro (h | ⟨x, hx, hxt, hxq⟩)
          · exact Or.inl (List.mem_append_left _ h)
          · rcases List.mem_cons.mp hx with rfl | h2
            · exact Or.inl (List.mem_append_right _ (by simp [hxt]))
            · exact Or.inr ⟨x, h2, hxt, hxq⟩
    · rw [show (Q e && !(acc.contains e.2)) = false by simp [hq], if_neg (by simp), ih]
      constructor
      · rintro (h | h)
        · exact Or.inl h
        · obtain ⟨x, hx, hxt, hxq⟩ := h
          exact Or.inr ⟨x, List.mem_cons_of_mem _ hx, hxt, hxq⟩
      · rintro (h | ⟨x, hx, hxt, hxq⟩)
        · exact Or.inl h
        · rcases List.mem_cons.mp hx with rfl | h2
          · exact absurd hxq hq
          · exact Or.inr ⟨x, h2, hxt, hxq⟩

/-- C9 amended: suggest(input) returns exactly the task names whose canonical
    name is a substring match in either direction or (for inputs longer than
    two characters) starts with the input's first two characters, together
    with the targets of aliases that are substring matches in either
    direction; the two-character prefix rule applies only to canonical names,
    never to aliases. -/
theorem c9_findSimilar_characterisation (c : Config) (name t : String) :
    t ∈ c.findSimilarCommands name ↔
      (t ∈ c.commands.map Prod.fst ∧ similarNameCheck (lowerStr name) (lowerStr t) = true) ∨
      (∃ e ∈ c.aliasMapOf, e.2 = t ∧
        (strContainsStr (lowerStr e.1) (lowerStr name) ||
          strContainsStr (lowerStr name) (lowerStr e.1)) = true) := by
  have h1 : c.findSimilarCommands name =
      c.aliasMapOf.foldl
        (fun acc e =>
          if ((strContainsStr (lowerStr e.1) (lowerStr name) ||
                strContainsStr (lowerStr name) (lowerStr e.1)) && !(acc.contains e.2)) = true then
            acc ++ [e.2]
          else acc)
        ((c.commands.map Prod.fst).foldl
          (fun acc n => if similarNameCheck (lowerStr name) (lowerStr n) = true then acc ++ [n] else acc)
          []) := rfl
  rw [h1,
    foldl_appendGuard_mem
      (fun e => strContainsStr (lowerStr e.1) (lowerStr name) ||
        strContainsStr (lowerStr name) (lowerStr e.1)),
    foldl_appendIf_mem (fun n => similarNameCheck (lowerStr name) (lowerStr n))]
  simp

/-- A task whose alias shares the input's two-character leading segment but is
    not a substring match in either direction. -/
def c9cfg : Config :=
  { commands := [("deploy", { aliases := ["abxdef"], run := { runDefault := ["x"] } })] }

/-- C9 counterexample: on input abz (length above two), the alias abxdef of
    task deploy starts with the input's first two characters, so the claim's
    prefix rule applied to aliases would have suggest return deploy; the code
    returns the empty suggestion list. -/
theorem c9_counterexample :
    c9cfg.findSimilarCommands "abz" = [] ∧
      ("abxdef", "deploy") ∈ c9cfg.aliasMapOf ∧
      (lowerStr "abz").toList.length > 2 ∧
      startsWithStr (lowerStr "abxdef") (String.mk ((lowerStr "abz").toList.take 2)) = true := by
  decide



/-- Reduction of a machine word modulo two to the thirty-two. -/
def w32 (x : Nat) : Nat := x % 4294967296

/-- Right rotation of a 32-bit word. -/
def rotr32 (n x : Nat) : Nat := w32 ((x >>> n) ||| (x <<< (32 - n)))

/-- Bitwise complement of a 32-bit word. -/
def not32 (x : Nat) : Nat := x ^^^ 4294967295

/-- The SHA-256 round constants (crypto/sha256). -/
def sha256K : List Nat :=
  [1116352408, 1899447441, 3049323471, 3921009573, 961987163, 1508970993, 2453635748,
   2870763221, 3624381080, 310598401, 607225278, 1426881987, 1925078388, 2162078206,
   2614888103, 3248222580, 3835390401, 4022224774, 264347078, 604807628, 770255983,
   1249150122, 1555081692, 1996064986, 2554220882, 2821834349, 2952996808, 3210313671,
   3336571891, 3584528711, 113926993, 338241895, 666307205, 773529912, 1294757372,
   1396182291, 1695183700, 1986661051, 2177026350, 2456956037, 2730485921, 2820302411,
   3259730800, 3345764771, 3516065817, 3600352804, 4094571909, 275423344, 430227734,
   506948616, 659060556, 883997877, 958139571, 1322822218, 1537002063, 1747873779,
   1955562222, 2024104815, 2227730452, 2361852424, 2428436474, 2756734187, 3204031479,
   3329325298]

/-- The SHA-256 initial hash state. -/
def sha256H0 : List Nat :=
  [1779033703, 3144134277, 1013904242, 2773480762, 1359893119, 2600822924, 528734635,
   1541459225]

/-- Big-endian byte decomposition of a 64-bit length. -/
def be64Bytes (n : Nat) : List Nat :=
  [(n >>> 56) % 256, (n >>> 48) % 256, (n >>> 40) % 256, (n >>> 32) % 256,
   (n >>> 24) % 256, (n >>> 16) % 256, (n >>> 8) % 256, n % 256]

/-- Big-endian byte decomposition of a 32-bit word. -/
def be32Bytes (n : Nat) : List Nat :=
  [(n >>> 24) % 256, (n >>> 16) % 256, (n >>> 8) % 256, n % 256]

/-- SHA-256 message padding: a one bit, zeros to fifty-six modulo sixty-four,
    then the bit length in big-endian. -/
def sha256Pad (msg : List Nat) : List Nat :=
  msg ++ [128] ++ List.replicate ((119 - msg.length % 64) % 64) 0 ++
    be64Bytes (msg.length * 8)

/-- Big-endian grouping of bytes into 32-bit words. -/
def bytesToWords : List Nat → List Nat
  | b0 :: b1 :: b2 :: b3 :: rest =>
    (((b0 * 256 + b1) * 256 + b2) * 256 + b3) :: bytesToWords rest
  | _ => []

/-- Split into sixty-four byte blocks; the fuel is any bound on the number of
    blocks (the list length suffices). -/
def chunk64 : Nat → List Nat → List (List Nat)
  | 0, _ => []
  | _, [] => []
  | n + 1, x :: rest => (x :: rest).take 64 :: chunk64 n ((x :: rest).drop 64)

/-- Message-schedule sigma functions. -/
def smallSigma0 (x : Nat) : Nat := ((rotr32 7 x) ^^^ (rotr32 18 x)) ^^^ (x >>> 3)

def smallSigma1 (x : Nat) : Nat := ((rotr32 17 x) ^^^ (rotr32 19 x)) ^^^ (x >>> 10)

/-- Compression sigma functions. -/
def bigSigma0 (x : Nat) : Nat := ((rotr32 2 x) ^^^ (rotr32 13 x)) ^^^ (rotr32 22 x)

def bigSigma1 (x : Nat) : Nat := ((rotr32 6 x) ^^^ (rotr32 11 x)) ^^^ (rotr32 25 x)

/-- Choice and majority. -/
def chF (e f g : Nat) : Nat := (e &&& f) ^^^ ((not32 e) &&& g)

def majF (a b c : Nat) : Nat := ((a &&& b) ^^^ (a &&& c)) ^^^ (b &&& c)

/-- Extend the sixteen block words by the given number of schedule words. -/
def extendWords : Nat → List Nat → List Nat
  | 0, ws => ws
  | n + 1, ws =>
    let i := ws.length
    let nxt := w32 (ws.getD (i - 16) 0 + smallSigma0 (ws.getD (i - 15) 0) +
      ws.getD (i - 7) 0 + smallSigma1 (ws.getD (i - 2) 0))
    extendWords n (ws ++ [nxt])

/-- The full sixty-four word schedule of one block. -/
def sha256Schedule (block : List Nat) : List Nat := extendWords 48 (bytesToWords block)

/-- One compression round on the eight-word working state. -/
def sha256Round (st : List Nat) (kw : Nat × Nat) : List Nat :=
  match st with
  | [a, b, c, d, e, f, g, h] =>
    let t1 := w32 (h + bigSigma1 e + chF e f g + kw.1 + kw.2)
    let t2 := w32 (bigSigma0 a + majF a b c)
    [w32 (t1 + t2), a, b, c, w32 (d + t1), e, f, g]
  | _ => st

/-- Compress one block into the hash state. -/
def sha256Compress (h : List Nat) (block : List Nat) : List Nat :=
  let st := (sha256K.zip (sha256Schedule block)).foldl sha256Round h
  (h.zip st).map (fun p => w32 (p.1 + p.2))

/-- SHA-256 of a byte list, as thirty-two digest bytes. -/
def sha256Bytes (msg : List Nat) : List Nat :=
  let padded := sha256Pad msg
  let final := (chunk64 padded.length padded).foldl sha256Compress sha256H0
  final.foldr (fun w acc => be32Bytes w ++ acc) []

/-- One lower-case hexadecimal digit. -/
def hexDigit (n : Nat) : Char := "0123456789abcdef".toList.getD n 'x'

/-- Lower-case hex encoding of a byte list (hex.EncodeToString). -/
def hexEncode (bytes : List Nat) : String :=
  String.mk (bytes.foldr (fun b acc => hexDigit (b / 16) :: hexDigit (b % 16) :: acc) [])

/-- A file of the modelled filesystem: its path, the string form of its
    modification time (info.ModTime().String()), and its content. -/
structure FileEntry where
  path : String
  modTimeStr : String
  content : String := ""
  deriving DecidableEq

/-- Byte sequence of an ASCII string. -/
def strBytes (s : String) : List Nat := s.toList.map Char.toNat

/-- Models filepath.Glob at its interface for patterns without metacharacters:
    such a pattern matches exactly itself, when a file with that path exists. -/
def globLiteral (fs : List FileEntry) (joined : String) : List String :=
  if fs.any (fun f => f.path = joined) then [joined] else []

/-- Models os.Stat at its interface: the entry stored under the path. -/
def statFile (fs : List FileEntry) (p : String) : Option FileEntry :=
  fs.find? (fun f => f.path = p)

/-- hashMatchingFiles from parser.go over the modelled filesystem: for each
    pattern in order, for each match in enumeration order, write the matched
    path's bytes and its modification-time string's bytes into the running
    SHA-256 (the streaming hasher of the source computes the hash of this
    concatenation), then hex-encode the digest.  File content is never read. -/
def hashMatchingFiles (fs : List FileEntry) (cwd : String) (patterns : List String) : String :=
  let bytes := patterns.foldl
    (fun acc pattern =>
      (globLiteral fs (joinPath cwd pattern)).foldl
        (fun acc2 m =>
          match statFile fs m with
          | some info => acc2 ++ strBytes m ++ strBytes info.modTimeStr
          | none => acc2) acc) []
  hexEncode (sha256Bytes bytes)

theorem statFile_modTime_proj :
    ∀ (fs1 fs2 : List FileEntry),
      fs1.map (fun f => (f.path, f.modTimeStr)) = fs2.map (fun f => (f.path, f.modTimeStr)) →
      ∀ p, (statFile fs1 p).map (fun f => f.modTimeStr) =
        (statFile fs2 p).map (fun f => f.modTimeStr) := by
  intro fs1
  induction fs1 with
  | nil =>
    intro fs2 h p
    cases fs2 with
    | nil => rfl
    | cons g t2 => simp at h
  | cons f t ih =>
    intro fs2 h p
    cases fs2 with
    | nil => simp at h
    | cons g t2 =>
      simp only [List.map_cons, List.cons.injEq, Prod.mk.injEq] at h
      obtain ⟨⟨hpath, hmod⟩, htail⟩ := h
      simp only [statFile, List.find?]
      by_cases hp : f.path = p
      · rw [decide_eq_true hp, decide_eq_true (show g.path = p by rw [← hpath]; exact hp)]
        simp [hmod]
      · rw [decide_eq_false hp, decide_eq_false (show ¬g.path = p by rw [← hpath]; exact hp)]
        exact ih t2 htail p

theorem any_path_eq (fs : List FileEntry) (j : String) :
    (fs.any fun f => decide (f.path = j)) =
      ((fs.map (fun f => f.path)).any fun x => decide (x = j)) := by
  induction fs with
  | nil => rfl
  | cons a t ih => simp [List.any_cons, ih]

theorem globLiteral_proj {fs1 fs2 : List FileEntry}
    (h : fs1.map (fun f => (f.path, f.modTimeStr)) = fs2.map (fun f => (f.path, f.modTimeStr)))
    (j : String) : globLiteral fs1 j = globLiteral fs2 j := by
  have hpaths : fs1.map (fun f => f.path) = fs2.map (fun f => f.path) := by
    have := congrArg (List.map Prod.fst) h
    simpa [List.map_map, Function.comp] using this
  have hany : (fs1.any fun f => decide (f.path = j)) = (fs2.any fun f => decide (f.path = j)) := by
    rw [any_path_eq, any_path_eq, hpaths]
  simp only [globLiteral, hany]

/-- C8 amended, part proved in general: the fingerprint never depends on file
    content — any two filesystems agreeing on paths and modification-time
    strings produce the same fingerprint for every working directory and
    pattern list. -/
theorem c8_hash_content_independent (fs1 fs2 : List FileEntry) (cwd : String)
    (patterns : List String)
    (h : fs1.map (fun f => (f.path, f.modTimeStr)) = fs2.map (fun f => (f.path, f.modTimeStr))) :
    hashMatchingFiles fs1 cwd patterns = hashMatchingFiles fs2 cwd patterns := by
  have hstep :
      (fun (acc : List Nat) (pattern : String) =>
        (globLiteral fs1 (joinPath cwd pattern)).foldl
          (fun acc2 m =>
            match statFile fs1 m with
            | some info => acc2 ++ strBytes m ++ strBytes info.modTimeStr
            | none => acc2) acc) =
      (fun (acc : List Nat) (pattern : String) =>
        (globLiteral fs2 (joinPath cwd pattern)).foldl
          (fun acc2 m =>
            match statFile fs2 m with
            | some info => acc2 ++ strBytes m ++ strBytes info.modTimeStr
            | none => acc2) acc) := by
    funext acc pattern
    rw [globLiteral_proj h]
    congr 1
    funext acc2 m
    have hstat := statFile_modTime_proj fs1 fs2 h m
    cases h1 : statFile fs1 m with
    | none =>
      cases h2 : statFile fs2 m with
      | none => rfl
      | some info2 => rw [h1, h2] at hstat; simp at hstat
    | some info1 =>
      cases h2 : statFile fs2 m with
      | none => rw [h1, h2] at hstat; simp at hstat
      | some info2 =>
        rw [h1, h2] at hstat
        have hmm : info1.modTimeStr = info2.modTimeStr := by simpa using hstat
        simp [hmm]
  rw [hashMatchingFiles, hashMatchingFiles, hstep]

/-- Two files with distinct paths and timestamps and distinct contents. -/
def fsC8 : List FileEntry :=
  [{ path := "/w/a", modTimeStr := "t1", content := "c1" },
   { path := "/w/b", modTimeStr := "t2", content := "c2" }]

/-- The same filesystem with every content changed. -/
def fsC8x : List FileEntry :=
  [{ path := "/w/a", modTimeStr := "t1", content := "other1" },
   { path := "/w/b", modTimeStr := "t2", content := "other2" }]

/-- C8 counterexample: the pattern lists a,b and b,a match exactly the same
    set of files (the two enumerations are reorderings of one another), yet
    the fingerprints differ: the hash depends on enumeration order, so it is
    not an order-independent hash of the matched set. -/
theorem c8_counterexample :
    (["a", "b"].flatMap (fun p => globLiteral fsC8 (joinPath "/w" p))) = ["/w/a", "/w/b"] ∧
      (["b", "a"].flatMap (fun p => globLiteral fsC8 (joinPath "/w" p))) = ["/w/b", "/w/a"] ∧
      hashMatchingFiles fsC8 "/w" ["a", "b"] ≠ hashMatchingFiles fsC8 "/w" ["b", "a"] := by
  decide

/-- Witness: content independence applied to the concrete filesystems. -/
theorem c8_hash_content_independent_witness :
    hashMatchingFiles fsC8 "/w" ["a", "b"] = hashMatchingFiles fsC8x "/w" ["a", "b"] :=
  c8_hash_content_independent fsC8 fsC8x "/w" ["a", "b"] (by decide)



/-- RunOptions from parser.go. -/
structure RunOptions where
  dryRun : Bool := false
  verbose : Bool := false
  quiet : Bool := false
  force : Bool := false
  args : List String := []
  isDependency : Bool := false
  deriving DecidableEq

/-- The error taxonomy of runCommandWithVisited; Go wraps error strings, here
    the wrapping structure is explicit.  commandFailed also stands for the
    process runner's timeout and interrupt failures, which differ only in
    message text and are produced by the same oracle in this model. -/
inductive RunErr where
  | circularDependency (name : String)
  | notFound (name : String) (suggestions : List String)
  | noRunCommands (name : String)
  | preHookFailed (hook parent : String) (e : RunErr)
  | depFailed (dep parent : String) (e : RunErr)
  | depFailedParallel (dep : String) (e : RunErr)
  | invalidTimeout (s : String)
  | invalidRetryDelay (s : String)
  | chdirFailed (dir : String)
  | commandFailed (line : String)
  deriving DecidableEq

/-- Observation points of the engine, recorded in execution order; phase
    events carry a snapshot of the visiting set (and the working directory
    where relevant) at the moment the phase starts. -/
inductive Ev where
  | fuzzyMatched (input matched : String)
  | skippedUnchanged (name : String)
  | preHook (parent hook : String) (visiting : List String)
  | depRun (parent dep : String) (visiting : List String)
  | chdirTo (dir : String)
  | retryAnnounce (name : String) (attempt maxAttempts : Nat)
  | retrySleep (delay : Nat)
  | bodyAttempt (name : String) (attempt : Nat) (visiting : List String) (cwd : String)
  | execLine (line : String) (ok : Bool)
  | postHook (parent hook : String) (visiting : List String) (cwd : String)
  | cacheUpdated (name key value : String) (cwd : String)
  deriving DecidableEq

/-- The mutable process state threaded by the engine: the cycle-detection
    visiting set (a Go map used as a set), the process working directory, the
    process environment, the persisted if-changed cache, the count of spawned
    body commands (indexing the exit-status oracle), and the event trace. -/
structure ExecState where
  visiting : List String := []
  cwd : String := "/"
  env : List (String × String) := []
  cache : List (String × String) := []
  execCount : Nat := 0
  trace : List Ev := []
  deriving DecidableEq

/-- The ambient world: host identifiers, the exit status of each spawned
    command in order, the change fingerprint of a pattern list as seen from a
    working directory (abstracting hashMatchingFiles over the ambient
    filesystem), the parsed contents of dotenv files (empty for missing
    files), and which directories exist. -/
structure World where
  goos : String := "linux"
  goarch : String := "amd64"
  execOk : Nat → Bool := fun _ => true
  hashFiles : String → List String → String := fun _ _ => "h"
  envFileVars : String → List (String × String) := fun _ => []
  dirExists : String → Bool := fun _ => true

deriving instance DecidableEq for Except

/-- Append one event to the trace. -/
def emit (s : ExecState) (e : Ev) : ExecState := { s with trace := s.trace ++ [e] }

/-- Word characters of Go's regexp \w on ASCII. -/
def isWordChar (ch : Char) : Bool := ch.isAlphanum || ch = '_'

/-- Left-to-right scan for double-brace variable tokens, replacing each
    resolvable token and leaving unresolved tokens verbatim; replacements are
    not re-scanned, matching regexp ReplaceAllStringFunc.  Fuel is the input
    length. -/
def interpScan (lookupVar : String → Option String) : Nat → List Char → List Char
  | 0, _ => []
  | _, [] => []
  | n + 1, ch :: rest =>
    if ch = lbrace then
      match rest with
      | ch2 :: rest2 =>
        if ch2 = lbrace then
          let word := rest2.takeWhile isWordChar
          let rest3 := rest2.dropWhile isWordChar
          match word, rest3 with
          | [], _ => ch :: interpScan lookupVar n (ch2 :: rest2)
          | _, c3 :: c4 :: rest4 =>
            if c3 = rbrace ∧ c4 = rbrace then
              match lookupVar (String.mk word) with
              | some v => v.toList ++ interpScan lookupVar n rest4
              | none => ch :: ch2 :: (word ++ [c3, c4] ++ interpScan lookupVar n rest4)
            else ch :: interpScan lookupVar n (ch2 :: rest2)
          | _, _ => ch :: interpScan lookupVar n (ch2 :: rest2)
        else ch :: interpScan lookupVar n (ch2 :: rest2)
      | [] => [ch]
    else ch :: interpScan lookupVar n rest

/-- interpolateVariables from parser.go: extra variables first, then
    user-defined variables, then the built-ins os, arch and cwd (the process
    working directory at call time). -/
def Config.interpolateVariables (c : Config) (goos goarch cwd : String)
    (extraVars : List (String × String)) (input : String) : String :=
  let builtins : List (String × String) := [("os", goos), ("arch", goarch), ("cwd", cwd)]
  let lookupVar := fun v =>
    match lookupStr v extraVars with
    | some val => some val
    | none =>
      match lookupStr v c.vars with
      | some val => some val
      | none => lookupStr v builtins
  String.mk (interpScan lookupVar input.toList.length input.toList)

/-- Models time.ParseDuration at its interface: durations are written as plain
    decimal counts of an abstract unit; the empty string and non-numeric
    strings fail to parse. -/
def parseDuration (s : String) : Option Nat :=
  if s = "" then none
  else if s.toList.all Char.isDigit then
    some (s.toList.foldl (fun acc c => acc * 10 + (c.toNat - 48)) 0)
  else none

/-- loadEnvFiles from parser.go: resolve each file against the config
    directory, silently skip missing files (modelled as empty variable lists),
    log only in dry-run, otherwise apply each interpolated key/value to the
    process environment.  Read errors are not modelled. -/
def loadEnvFiles (c : Config) (w : World) (opts : RunOptions) (files : List String)
    (s : ExecState) : ExecState :=
  files.foldl
    (fun st file =>
      let path := if isAbsPath file then file else joinPath c.configDir file
      if opts.dryRun then st
      else
        (w.envFileVars path).foldl
          (fun st2 kv =>
            { st2 with
              env := setAssoc st2.env kv.1
                (c.interpolateVariables w.goos w.goarch st2.cwd [] kv.2) })
          st)
    s

/-- Application of an environment map, in list order (Go map iteration order
    is arbitrary; no claim depends on it): interpolate each value and set it,
    or in dry-run only print. -/
def applyEnvList (c : Config) (w : World) (opts : RunOptions)
    (entries : List (String × String)) (s : ExecState) : ExecState :=
  entries.foldl
    (fun st kv =>
      let v := c.interpolateVariables w.goos w.goarch st.cwd [] kv.2
      if opts.dryRun then st else { st with env := setAssoc st.env kv.1 v })
    s

/-- The if-changed cache key from parser.go. -/
def cacheKey (name : String) (patterns : List String) : String :=
  name ++ ":" ++ joinComma patterns

/-- checkIfChanged from parser.go: true when the current fingerprint differs
    from the cached one or no cache entry exists.  The error path (assume
    changed) is not modelled: the fingerprint oracle is total. -/
def checkIfChanged (w : World) (s : ExecState) (name : String) (patterns : List String) : Bool :=
  let currentHash := w.hashFiles s.cwd patterns
  match lookupStr (cacheKey name patterns) s.cache with
  | some cached => if currentHash = cached then false else true
  | none => true

/-- updateIfChangedCache from parser.go: recompute the fingerprint at the
    current working directory and persist it under the task's key. -/
def updateIfChangedCache (w : World) (s : ExecState) (name : String)
    (patterns : List String) : ExecState :=
  let key := cacheKey name patterns
  let h := w.hashFiles s.cwd patterns
  emit { s with cache := setAssoc s.cache key h } (Ev.cacheUpdated name key h s.cwd)

/-- The literal args token, as character codes. -/
def argsToken : List Char := [lbrace, lbrace, 'a', 'r', 'g', 's', rbrace, rbrace]

/-- Whether the raw command text references the args token. -/
def containsArgsToken (command : String) : Bool := listInfixOf argsToken command.toList

/-- One command line of executeCommands from parser.go: interpolate, append
    passthrough args when the raw text does not reference the args token, then
    in dry-run only report; otherwise the next oracle entry decides between
    success and a command failure. -/
def execOneLine (c : Config) (w : World) (extraVars : List (String × String))
    (opts : RunOptions) (line : String) (s : ExecState) :
    Except RunErr Unit × ExecState :=
  let interpolated := c.interpolateVariables w.goos w.goarch s.cwd extraVars line
  let full :=
    if opts.args ≠ [] ∧ ¬(containsArgsToken line = true) then
      interpolated ++ " " ++ joinSpace opts.args
    else interpolated
  if opts.dryRun then (Except.ok (), emit s (Ev.execLine full true))
  else
    let ok := w.execOk s.execCount
    let s2 := emit { s with execCount := s.execCount + 1 } (Ev.execLine full ok)
    if ok then (Except.ok (), s2) else (Except.error (RunErr.commandFailed full), s2)

/-- executeCommands from parser.go: the body lines in order, aborting the
    remainder on the first failure.  The timeout is carried for signature
    fidelity; expiry and interruption are folded into the exit oracle. -/
def executeCommands (c : Config) (w : World) (runCommands : List String)
    (extraVars : List (String × String)) (timeout : Nat) (opts : RunOptions)
    (s : ExecState) : Except RunErr Unit × ExecState :=
  match runCommands with
  | [] => (Except.ok (), s)
  | line :: rest =>
    match execOneLine c w extraVars opts line s with
    | (Except.ok _, s2) => executeCommands c w rest extraVars timeout opts s2
    | (e, s2) => (e, s2)

/-- The retry loop of runCommandWithVisited: remaining counts down from
    maxAttempts, attempt counts up from one; attempts after the first announce
    the retry (unless quiet) and sleep the configured delay (when positive);
    the loop stops at the first success and otherwise remembers the last
    error. -/
def attemptLoop (c : Config) (w : World) (rname : String) (runCommands : List String)
    (extraVars : List (String × String)) (timeout : Nat) (opts : RunOptions)
    (maxAttempts delay : Nat) :
    Nat → Nat → Option RunErr → ExecState → Option RunErr × ExecState
  | 0, _, lastErr, s => (lastErr, s)
  | remaining + 1, attempt, lastErr, s =>
    let s1 :=
      if attempt > 1 then
        let sA :=
          if ¬(opts.quiet = true) then emit s (Ev.retryAnnounce rname attempt maxAttempts)
          else s
        if delay > 0 then emit sA (Ev.retrySleep delay) else sA
      else s
    let s2 := emit s1 (Ev.bodyAttempt rname attempt s1.visiting s1.cwd)
    match executeCommands c w runCommands extraVars timeout opts s2 with
    | (Except.ok _, s3) => (none, s3)
    | (Except.error e, s3) =>
      attemptLoop c w rname runCommands extraVars timeout opts maxAttempts delay
        remaining (attempt + 1) (some e) s3

/-- The type of the engine's recursive entry, as passed to the phase helpers. -/
abbrev RunF := String → RunOptions → ExecState → Option (Except RunErr Unit × ExecState)

/-- The post-hook loop: each hook is recorded and run as a dependency with
    cleared args; a hook failure is only a warning and the loop continues. -/
def runPostHooks (runF : RunF) (hooks : List String) (parent : String) (opts : RunOptions)
    (s : ExecState) : Option ExecState :=
  match hooks with
  | [] => some s
  | hook :: rest =>
    let s1 := emit s (Ev.postHook parent hook s.visiting s.cwd)
    match runF hook { opts with args := [], isDependency := true } s1 with
    | none => none
    | some (_, s2) => runPostHooks runF rest parent opts s2

/-- The pre-hook loop: sequential, cleared args, dependency mode; the first
    failure aborts with context naming the hook and the parent. -/
def runPreHooks (runF : RunF) (hooks : List String) (parent : String) (opts : RunOptions)
    (s : ExecState) : Option (Except RunErr Unit × ExecState) :=
  match hooks with
  | [] => some (Except.ok (), s)
  | hook :: rest =>
    let s1 := emit s (Ev.preHook parent hook s.visiting)
    match runF hook { opts with args := [], isDependency := true } s1 with
    | none => none
    | some (Except.ok _, s2) => runPreHooks runF rest parent opts s2
    | some (Except.error e, s2) => some (Except.error (RunErr.preHookFailed hook parent e), s2)

/-- The sequential dependency loop: declared order, cleared args, dependency
    mode; the first failure aborts with context naming the dep and parent. -/
def runDepsSeq (runF : RunF) (deps : List String) (parent : String) (opts : RunOptions)
    (s : ExecState) : Option (Except RunErr Unit × ExecState) :=
  match deps with
  | [] => some (Except.ok (), s)
  | dep :: rest =>
    let s1 := emit s (Ev.depRun parent dep s.visiting)
    match runF dep { opts with args := [], isDependency := true } s1 with
    | none => none
    | some (Except.ok _, s2) => runDepsSeq runF rest parent opts s2
    | some (Except.error e, s2) => some (Except.error (RunErr.depFailed dep parent e), s2)

/-- runDepsParallel from parser.go, determinized: every branch starts from a
    private copy of the visiting set, all branches run to completion, and the
    first failure in declared order is reported (the source drains an
    unordered channel, so which of several simultaneous failures is first is
    nondeterministic there).  Shared mutations to environment, cache and trace
    are threaded in declared order. -/
def runDepsParGo (runF : RunF) (parent : String) (opts : RunOptions)
    (baseVisiting : List String) :
    List String → Option RunErr → ExecState → Option (Except RunErr Unit × ExecState)
  | [], firstErr, s =>
    match firstErr with
    | some e => some (Except.error e, { s with visiting := baseVisiting })
    | none => some (Except.ok (), { s with visiting := baseVisiting })
  | dep :: rest, firstErr, s =>
    let s1 := emit { s with visiting := baseVisiting } (Ev.depRun parent dep baseVisiting)
    match runF dep { opts with args := [], isDependency := true } s1 with
    | none => none
    | some (r, s2) =>
      let nextErr :=
        match firstErr, r with
        | some e, _ => some e
        | none, Except.error e => some (RunErr.depFailedParallel dep e)
        | none, Except.ok _ => none
      runDepsParGo runF parent opts baseVisiting rest nextErr s2

/-- Parallel dependency fan-out entry. -/
def runDepsPar (runF : RunF) (deps : List String) (parent : String) (opts : RunOptions)
    (s : ExecState) : Option (Except RunErr Unit × ExecState) :=
  runDepsParGo runF parent opts s.visiting deps none s

/-- The phases of runCommandWithVisited after body execution (parser.go lines
    658-692): run post-hooks when the body's last error is nil or post_always
    is set (never as a dependency) with hook failures only warned about, then
    propagate the body's last error, and on success update the if-changed
    cache unless dry-run. -/
def afterBody (runF : RunF) (c : Config) (w : World) (rname : String) (cmd : Command)
    (opts : RunOptions) (lastErr : Option RunErr) (s1 : ExecState) :
    Option (Except RunErr Unit × ExecState) :=
  match
    (if cmd.post ≠ [] ∧ ¬(opts.isDependency = true) ∧
        (lastErr = none ∨ cmd.postAlways = true) then
      runPostHooks runF cmd.post rname opts s1
    else some s1) with
  | none => none
  | some s2 =>
    match lastErr with
    | some e => some (Except.error e, s2)
    | none =>
      some (Except.ok (),
        if cmd.ifChanged ≠ [] ∧ ¬(opts.dryRun = true) then
          updateIfChangedCache w s2 rname cmd.ifChanged
        else s2)

/-- The body segment of runCommandWithVisited after the working-directory
    change (parser.go lines 606-692): parse timeout and retry delay, run the
    body with retries, then the post/propagate/cache phases of afterBody. -/
def finishAfterDir (runF : RunF) (c : Config) (w : World) (rname : String) (cmd : Command)
    (runCommands : List String) (extraVars : List (String × String)) (opts : RunOptions)
    (s : ExecState) : Option (Except RunErr Unit × ExecState) :=
  if cmd.timeout ≠ "" ∧ (parseDuration cmd.timeout).isNone then
    some (Except.error (RunErr.invalidTimeout cmd.timeout), s)
  else if cmd.retryDelay ≠ "" ∧ (parseDuration cmd.retryDelay).isNone then
    some (Except.error (RunErr.invalidRetryDelay cmd.retryDelay), s)
  else
    afterBody runF c w rname cmd opts
      (attemptLoop c w rname runCommands extraVars ((parseDuration cmd.timeout).getD 0) opts
        (if cmd.retry > 0 then cmd.retry.toNat + 1 else 1)
        ((parseDuration cmd.retryDelay).getD 0)
        (if cmd.retry > 0 then cmd.retry.toNat + 1 else 1) 1 none s).1
      (attemptLoop c w rname runCommands extraVars ((parseDuration cmd.timeout).getD 0) opts
        (if cmd.retry > 0 then cmd.retry.toNat + 1 else 1)
        ((parseDuration cmd.retryDelay).getD 0)
        (if cmd.retry > 0 then cmd.retry.toNat + 1 else 1) 1 none s).2

/-- Resolution of a declared working directory: interpolate it (the args
    scope included, as in the source), then resolve non-absolute paths
    relative to the config file's directory. -/
def resolveDir (c : Config) (w : World) (cwd : String) (args : List String)
    (dir : String) : String :=
  let interpolatedDir := c.interpolateVariables w.goos w.goarch cwd
    [("args", joinSpace args)] dir
  if isAbsPath interpolatedDir then interpolatedDir
  else joinPath c.configDir interpolatedDir

/-- The working-directory phase and everything after it, given the state with
    the environment already applied: in dry-run or without a declared
    directory nothing changes; otherwise enter the resolved directory for the
    rest of the invocation and restore the original directory when the
    invocation returns — the deferred chdir of the source runs at function
    exit, after post-hooks and the cache update. -/
def afterEnv (runF : RunF) (c : Config) (w : World) (rname : String) (cmd : Command)
    (runCommands : List String) (opts : RunOptions) (s2 : ExecState) :
    Option (Except RunErr Unit × ExecState) :=
  if cmd.dir = "" then
    finishAfterDir runF c w rname cmd runCommands [("args", joinSpace opts.args)] opts s2
  else if opts.dryRun = true then
    finishAfterDir runF c w rname cmd runCommands [("args", joinSpace opts.args)] opts s2
  else if w.dirExists (resolveDir c w s2.cwd opts.args cmd.dir) = true then
    match
      finishAfterDir runF c w rname cmd runCommands [("args", joinSpace opts.args)] opts
        (emit { s2 with cwd := resolveDir c w s2.cwd opts.args cmd.dir }
          (Ev.chdirTo (resolveDir c w s2.cwd opts.args cmd.dir))) with
    | none => none
    | some (r, s4) => some (r, { s4 with cwd := s2.cwd })
  else some (Except.error (RunErr.chdirFailed (resolveDir c w s2.cwd opts.args cmd.dir)), s2)

/-- The tail of runCommandWithVisited from the environment application on:
    set the global then the task environment, then the directory phase. -/
def finishRun (runF : RunF) (c : Config) (w : World) (rname : String) (cmd : Command)
    (runCommands : List String) (opts : RunOptions) (s : ExecState) :
    Option (Except RunErr Unit × ExecState) :=
  afterEnv runF c w rname cmd runCommands opts
    (applyEnvList c w opts cmd.env (applyEnvList c w opts c.env s))

/-- The dotenv and pre-hook phase: load the global then the task dotenv
    files, then run the pre-hooks (only for the task the user directly
    named). -/
def prePhase (runF : RunF) (c : Config) (w : World) (rname : String) (cmd : Command)
    (opts : RunOptions) (s : ExecState) : Option (Except RunErr Unit × ExecState) :=
  if cmd.pre ≠ [] ∧ ¬(opts.isDependency = true) then
    runPreHooks runF cmd.pre rname opts
      (loadEnvFiles c w opts cmd.envFile (loadEnvFiles c w opts c.settings.envFile s))
  else
    some (Except.ok (),
      loadEnvFiles c w opts cmd.envFile (loadEnvFiles c w opts c.settings.envFile s))

/-- The dependency phase: when the dep list is nonempty, mark the resolved
    name as visiting, run the dependencies (parallel or sequential), and
    unmark only when they all succeeded — a failure returns with the mark
    still set, as in the source. -/
def depPhase (runF : RunF) (c : Config) (rname : String) (cmd : Command)
    (opts : RunOptions) (s3 : ExecState) : Option (Except RunErr Unit × ExecState) :=
  if cmd.dep ≠ [] then
    match
      (if c.settings.parallel = true then
        runDepsPar runF cmd.dep rname opts
          { s3 with visiting := setMark s3.visiting rname }
      else
        runDepsSeq runF cmd.dep rname opts
          { s3 with visiting := setMark s3.visiting rname }) with
    | none => none
    | some (Except.error e, s5) => some (Except.error e, s5)
    | some (Except.ok _, s5) =>
      some (Except.ok (), { s5 with visiting := setUnmark s5.visiting rname })
  else some (Except.ok (), s3)

/-- runCommandWithVisited from parser.go as a fuel-indexed interpreter: alias
    resolution, the circular check against the visiting set, lookup with the
    fuzzy fallback and not-found suggestions, the empty-body configuration
    error, the change gate (skipped when forced, dry-run, or a dependency),
    dotenv loading, pre-hooks (top level only), the dependency phase bracketed
    by marking and unmarking the resolved name (the mark leaks on a dependency
    failure, as in the source), and the body/post tail.  none means fuel ran
    out (the source would still be recursing). -/
def runCommandWithVisited (c : Config) (w : World) :
    Nat → String → RunOptions → ExecState → Option (Except RunErr Unit × ExecState)
  | 0, _, _, _ => none
  | fuel + 1, name, opts, s =>
    if c.ResolveCommandName name ∈ s.visiting then
      some (Except.error (RunErr.circularDependency (c.ResolveCommandName name)), s)
    else
      match lookupStr (c.ResolveCommandName name) c.commands with
      | none =>
        if c.FuzzyMatch name ≠ "" then
          runCommandWithVisited c w fuel (c.FuzzyMatch name) opts
            (if ¬(opts.quiet = true) then emit s (Ev.fuzzyMatched name (c.FuzzyMatch name))
            else s)
        else some (Except.error (RunErr.notFound name (c.findSimilarCommands name)), s)
      | some cmd =>
        if cmd.run.getForCurrentPlatform w.goos = [] then
          some (Except.error (RunErr.noRunCommands (c.ResolveCommandName name)), s)
        else if cmd.ifChanged ≠ [] ∧ ¬(opts.force = true) ∧ ¬(opts.dryRun = true) ∧
            ¬(opts.isDependency = true) ∧
            checkIfChanged w s (c.ResolveCommandName name) cmd.ifChanged = false then
          some (Except.ok (), emit s (Ev.skippedUnchanged (c.ResolveCommandName name)))
        else
          match prePhase (runCommandWithVisited c w fuel) c w
              (c.ResolveCommandName name) cmd opts s with
          | none => none
          | some (Except.error e, s3) => some (Except.error e, s3)
          | some (Except.ok _, s3) =>
            match depPhase (runCommandWithVisited c w fuel) c
                (c.ResolveCommandName name) cmd opts s3 with
            | none => none
            | some (Except.error e, s6) => some (Except.error e, s6)
            | some (Except.ok _, s6) =>
              finishRun (runCommandWithVisited c w fuel) c w (c.ResolveCommandName name) cmd
                (cmd.run.getForCurrentPlatform w.goos) opts s6

/-- The engine preserves the working directory across an invocation. -/
def PreservesCwd (runF : RunF) : Prop :=
  ∀ n o st r st', runF n o st = some (r, st') → st'.cwd = st.cwd

/-- The engine only appends to the trace. -/
def TraceMono (runF : RunF) : Prop :=
  ∀ n o st r st', runF n o st = some (r, st') → ∃ d, st'.trace = st.trace ++ d

theorem foldl_cwd_inv {α : Type} {f : ExecState → α → ExecState}
    (hf : ∀ st x, (f st x).cwd = st.cwd) :
    ∀ (l : List α) (s : ExecState), (l.foldl f s).cwd = s.cwd := by
  intro l
  induction l with
  | nil => intro s; rfl
  | cons a t ih => intro s; rw [List.foldl_cons, ih, hf]

theorem loadEnvFiles_cwd (c : Config) (w : World) (opts : RunOptions) (files : List String)
    (s : ExecState) : (loadEnvFiles c w opts files s).cwd = s.cwd := by
  apply foldl_cwd_inv
  intro st file
  by_cases hd : opts.dryRun = true
  · simp [hd]
  · simp only [if_neg hd]
    apply foldl_cwd_inv
    intro st2 kv
    rfl

theorem applyEnvList_cwd (c : Config) (w : World) (opts : RunOptions)
    (entries : List (String × String)) (s : ExecState) :
    (applyEnvList c w opts entries s).cwd = s.cwd := by
  apply foldl_cwd_inv
  intro st kv
  by_cases hd : opts.dryRun = true
  · simp [hd]
  · simp [if_neg hd]

theorem execOneLine_cwd (c : Config) (w : World) (extraVars : List (String × String))
    (opts : RunOptions) (line : String) (s : ExecState) :
    (execOneLine c w extraVars opts line s).2.cwd = s.cwd := by
  rw [execOneLine]
  by_cases hd : opts.dryRun = true
  · simp only [if_pos hd]
    rfl
  · simp only [if_neg hd]
    cases hok : w.execOk s.execCount <;> simp [emit, hok]

theorem executeCommands_cwd (c : Config) (w : World) (extraVars : List (String × String))
    (timeout : Nat) (opts : RunOptions) :
    ∀ (lines : List String) (s : ExecState),
      (executeCommands c w lines extraVars timeout opts s).2.cwd = s.cwd := by
  intro lines
  induction lines with
  | nil => intro s; rfl
  | cons line rest ih =>
    intro s
    rw [executeCommands]
    rcases hres : execOneLine c w extraVars opts line s with ⟨r, s2⟩
    have h2 : s2.cwd = s.cwd := by
      have := execOneLine_cwd c w extraVars opts line s
      rw [hres] at this
      exact this
    cases r with
    | ok u => simp only []; rw [ih s2, h2]
    | error e => simp only []; exact h2

theorem attemptLoop_cwd (c : Config) (w : World) (rname : String) (runCommands : List String)
    (extraVars : List (String × String)) (timeout : Nat) (opts : RunOptions)
    (maxAttempts delay : Nat) :
    ∀ (remaining attempt : Nat) (lastErr : Option RunErr) (s : ExecState),
      (attemptLoop c w rname runCommands extraVars timeout opts maxAttempts delay
        remaining attempt lastErr s).2.cwd = s.cwd := by
  intro remaining
  induction remaining with
  | zero => intro attempt lastErr s; rfl
  | succ n ih =>
    intro attempt lastErr s
    rw [attemptLoop]
    have hpre : ∀ (s1 : ExecState), s1.cwd = s.cwd →
        (match executeCommands c w runCommands extraVars timeout opts
            (emit s1 (Ev.bodyAttempt rname attempt s1.visiting s1.cwd)) with
          | (Except.ok _, s3) => ((none : Option RunErr), s3)
          | (Except.error e, s3) =>
            attemptLoop c w rname runCommands extraVars timeout opts maxAttempts delay
              n (attempt + 1) (some e) s3).2.cwd = s.cwd := by
      intro s1 h1
      rcases hres : executeCommands c w runCommands extraVars timeout opts
          (emit s1 (Ev.bodyAttempt rname attempt s1.visiting s1.cwd)) with ⟨r, s3⟩
      have h3 : s3.cwd = s.cwd := by
        have := executeCommands_cwd c w extraVars timeout opts runCommands
          (emit s1 (Ev.bodyAttempt rname attempt s1.visiting s1.cwd))
        rw [hres] at this
        rw [this, show (emit s1 (Ev.bodyAttempt rname attempt s1.visiting s1.cwd)).cwd = s1.cwd from rfl, h1]
      cases r with
      | ok u => exact h3
      | error e => rw [ih (attempt + 1) (some e) s3, h3]
    apply hpre
    by_cases h1 : attempt > 1 <;> by_cases h2 : ¬(opts.quiet = true) <;>
      by_cases h3 : delay > 0 <;> simp [h1, h2, h3, emit]

theorem runPostHooks_cwd {runF : RunF} (hF : PreservesCwd runF) :
    ∀ (hooks : List String) (parent : String) (opts : RunOptions) (s s2 : ExecState),
      runPostHooks runF hooks parent opts s = some s2 → s2.cwd = s.cwd := by
  intro hooks
  induction hooks with
  | nil =>
    intro parent opts s s2 h
    cases h
    rfl
  | cons hook rest ih =>
    intro parent opts s s2 h
    rw [runPostHooks] at h
    rcases hres : runF hook { opts with args := [], isDependency := true }
        (emit s (Ev.postHook parent hook s.visiting s.cwd)) with _ | ⟨r, sx⟩
    · rw [hres] at h; cases h
    · rw [hres] at h
      have h1 := hF _ _ _ _ _ hres
      rw [ih parent opts sx s2 h, h1]
      rfl

theorem runPreHooks_cwd {runF : RunF} (hF : PreservesCwd runF) :
    ∀ (hooks : List String) (parent : String) (opts : RunOptions) (s : ExecState)
      (r : Except RunErr Unit) (s2 : ExecState),
      runPreHooks runF hooks parent opts s = some (r, s2) → s2.cwd = s.cwd := by
  intro hooks
  induction hooks with
  | nil =>
    intro parent opts s r s2 h
    cases h
    rfl
  | cons hook rest ih =>
    intro parent opts s r s2 h
    rw [runPreHooks] at h
    rcases hres : runF hook { opts with args := [], isDependency := true }
        (emit s (Ev.preHook parent hook s.visiting)) with _ | ⟨rx, sx⟩
    · rw [hres] at h; cases h
    · rw [hres] at h
      have h1 := hF _ _ _ _ _ hres
      cases rx with
      | ok u =>
        rw [ih parent opts sx r s2 h, h1]
        rfl
      | error e =>
        cases h
        rw [h1]
        rfl

theorem runDepsSeq_cwd {runF : RunF} (hF : PreservesCwd runF) :
    ∀ (deps : List String) (parent : String) (opts : RunOptions) (s : ExecState)
      (r : Except RunErr Unit) (s2 : ExecState),
      runDepsSeq runF deps parent opts s = some (r, s2) → s2.cwd = s.cwd := by
  intro deps
  induction deps with
  | nil =>
    intro parent opts s r s2 h
    cases h
    rfl
  | cons dep rest ih =>
    intro parent opts s r s2 h
    rw [runDepsSeq] at h
    rcases hres : runF dep { opts with args := [], isDependency := true }
        (emit s (Ev.depRun parent dep s.visiting)) with _ | ⟨rx, sx⟩
    · rw [hres] at h; cases h
    · rw [hres] at h
      have h1 := hF _ _ _ _ _ hres
      cases rx with
      | ok u =>
        rw [ih parent opts sx r s2 h, h1]
        rfl
      | error e =>
        cases h
        rw [h1]
        rfl

theorem runDepsParGo_cwd {runF : RunF} (hF : PreservesCwd runF) :
    ∀ (deps : List String) (parent : String) (opts : RunOptions)
      (baseVisiting : List String) (firstErr : Option RunErr) (s : ExecState)
      (r : Except RunErr Unit) (s2 : ExecState),
      runDepsParGo runF parent opts baseVisiting deps firstErr s = some (r, s2) →
      s2.cwd = s.cwd := by
  intro deps
  induction deps with
  | nil =>
    intro parent opts baseVisiting firstErr s r s2 h
    cases firstErr with
    | some e => cases h; rfl
    | none => cases h; rfl
  | cons dep rest ih =>
    intro parent opts baseVisiting firstErr s r s2 h
    rw [runDepsParGo] at h
    rcases hres : runF dep { opts with args := [], isDependency := true }
        (emit { s with visiting := baseVisiting } (Ev.depRun parent dep baseVisiting))
      with _ | ⟨rx, sx⟩
    · rw [hres] at h; cases h
    · rw [hres] at h
      have h1 := hF _ _ _ _ _ hres
      have h2 := ih parent opts baseVisiting _ sx r s2 h
      rw [h2, h1]
      rfl

theorem afterBody_cwd {runF : RunF} (hF : PreservesCwd runF)
    (c : Config) (w : World) (rname : String) (cmd : Command) (opts : RunOptions)
    (lastErr : Option RunErr) (s1 : ExecState) (r : Except RunErr Unit) (s2 : ExecState)
    (h : afterBody runF c w rname cmd opts lastErr s1 = some (r, s2)) :
    s2.cwd = s1.cwd := by
  rw [afterBody] at h
  split at h
  case h_1 heq =>
    cases h
  case h_2 sx heq =>
    have hx : sx.cwd = s1.cwd := by
      split at heq
      · exact runPostHooks_cwd hF cmd.post rname opts s1 sx heq
      · cases heq
        rfl
    split at h
    · cases h
      exact hx
    · split at h
      case isTrue =>
        cases h
        rw [show (updateIfChangedCache w sx rname cmd.ifChanged).cwd = sx.cwd from rfl, hx]
      case isFalse =>
        cases h
        exact hx

theorem finishAfterDir_cwd {runF : RunF} (hF : PreservesCwd runF)
    (c : Config) (w : World) (rname : String) (cmd : Command) (runCommands : List String)
    (extraVars : List (String × String)) (opts : RunOptions) (s : ExecState)
    (r : Except RunErr Unit) (s2 : ExecState)
    (h : finishAfterDir runF c w rname cmd runCommands extraVars opts s = some (r, s2)) :
    s2.cwd = s.cwd := by
  rw [finishAfterDir] at h
  split at h
  · cases h
    rfl
  · split at h
    · cases h
      rfl
    · have hb := afterBody_cwd hF c w rname cmd opts _ _ r s2 h
      rw [hb, attemptLoop_cwd]

theorem afterEnv_cwd {runF : RunF} (hF : PreservesCwd runF)
    (c : Config) (w : World) (rname : String) (cmd : Command) (runCommands : List String)
    (opts : RunOptions) (s2 : ExecState) (r : Except RunErr Unit) (s' : ExecState)
    (h : afterEnv runF c w rname cmd runCommands opts s2 = some (r, s')) :
    s'.cwd = s2.cwd := by
  rw [afterEnv] at h
  split at h
  · exact finishAfterDir_cwd hF c w rname cmd runCommands _ opts s2 r s' h
  · split at h
    · exact finishAfterDir_cwd hF c w rname cmd runCommands _ opts s2 r s' h
    · split at h
      · split at h
        case h_1 => cases h
        case h_2 rx s4 heq =>
          cases h
          rfl
      · cases h
        rfl

theorem finishRun_cwd {runF : RunF} (hF : PreservesCwd runF)
    (c : Config) (w : World) (rname : String) (cmd : Command) (runCommands : List String)
    (opts : RunOptions) (s : ExecState) (r : Except RunErr Unit) (s2 : ExecState)
    (h : finishRun runF c w rname cmd runCommands opts s = some (r, s2)) :
    s2.cwd = s.cwd := by
  rw [finishRun] at h
  have := afterEnv_cwd hF c w rname cmd runCommands opts _ r s2 h
  rw [this, applyEnvList_cwd, applyEnvList_cwd]

theorem loadEnvFiles2_cwd (c : Config) (w : World) (opts : RunOptions)
    (f1 f2 : List String) (s : ExecState) :
    (loadEnvFiles c w opts f2 (loadEnvFiles c w opts f1 s)).cwd = s.cwd := by
  rw [loadEnvFiles_cwd, loadEnvFiles_cwd]

theorem prePhase_cwd {runF : RunF} (hF : PreservesCwd runF)
    (c : Config) (w : World) (rname : String) (cmd : Command) (opts : RunOptions)
    (s : ExecState) (r : Except RunErr Unit) (s3 : ExecState)
    (h : prePhase runF c w rname cmd opts s = some (r, s3)) : s3.cwd = s.cwd := by
  rw [prePhase] at h
  split at h
  · exact (runPreHooks_cwd hF cmd.pre rname opts _ r s3 h).trans (loadEnvFiles2_cwd c w opts _ _ s)
  · cases h
    exact loadEnvFiles2_cwd c w opts _ _ s

theorem depPhase_cwd {runF : RunF} (hF : PreservesCwd runF)
    (c : Config) (rname : String) (cmd : Command) (opts : RunOptions)
    (s3 : ExecState) (r : Except RunErr Unit) (s6 : ExecState)
    (h : depPhase runF c rname cmd opts s3 = some (r, s6)) : s6.cwd = s3.cwd := by
  rw [depPhase] at h
  split at h
  · split at h
    case h_1 => cases h
    case h_2 e s5 heq =>
      cases h
      split at heq
      · rw [runDepsPar] at heq
        have h5 := runDepsParGo_cwd hF _ _ _ _ _ _ _ _ heq
        exact h5
      · have h5 := runDepsSeq_cwd hF _ _ _ _ _ _ heq
        exact h5
    case h_3 u s5 heq =>
      cases h
      split at heq
      · rw [runDepsPar] at heq
        have h5 := runDepsParGo_cwd hF _ _ _ _ _ _ _ _ heq
        exact h5
      · have h5 := runDepsSeq_cwd hF _ _ _ _ _ _ heq
        exact h5
  · cases h
    rfl

/-- The engine preserves the working directory: the deferred restore runs on
    every exit path after the chdir, and no other phase moves the process. -/
theorem runCmd_cwd (c : Config) (w : World) :
    ∀ fuel, PreservesCwd (runCommandWithVisited c w fuel) := by
  intro fuel
  induction fuel with
  | zero =>
    intro n o st r st' h
    simp [runCommandWithVisited] at h
  | succ fuel ih =>
    intro n o st r st' h
    rw [runCommandWithVisited] at h
    split at h
    · cases h
      rfl
    · split at h
      case h_1 heq =>
        split at h
        · have hrec := ih _ _ _ _ _ h
          rw [hrec]
          split <;> rfl
        · cases h
          rfl
      case h_2 cmd heq =>
        split at h
        · cases h
          rfl
        · split at h
          · cases h
            rfl
          · split at h
            case h_1 => cases h
            case h_2 e s3 hpre =>
              cases h
              exact prePhase_cwd ih c w _ cmd o st _ _ hpre
            case h_3 u s3 hpre =>
              split at h
              case h_1 => cases h
              case h_2 e2 s6 hdep =>
                cases h
                exact (depPhase_cwd ih c _ cmd o s3 _ _ hdep).trans
                  (prePhase_cwd ih c w _ cmd o st _ _ hpre)
              case h_3 u2 s6 hdep =>
                have hfin := finishRun_cwd ih c w _ cmd
                  (cmd.run.getForCurrentPlatform w.goos) o s6 r st' h
                rw [hfin]
                exact (depPhase_cwd ih c _ cmd o s3 _ _ hdep).trans
                  (prePhase_cwd ih c w _ cmd o st _ _ hpre)

/-- The one-task configuration of the fuzzy-fallback counterexample: the only
    task is build, and the misspelled name biuld is within the fuzzy
    threshold. -/
def c1cfg : Config := { commands := [("build", { run := { runDefault := ["bcmd"] } })] }

/-- The default world: every spawned command succeeds. -/
def wDflt : World := {}

/-- C1 amended: the fuzzy fallback is not restricted to the top-level
    dispatch.  Whenever the exact/alias lookup fails, the engine consults
    FuzzyMatch with the caller's options unchanged — the is-dependency flag
    included — and recurses on the fuzzy-matched name; only when FuzzyMatch
    also fails does the invocation fail with NotFound and suggestions.  The
    frozen claim says a dependency-mode invocation of an unknown name is
    never fuzzy-resolved; the first conjunct refutes that in general and
    c1_counterexample instantiates it. -/
theorem c1_fuzzy_fallback_ignores_dependency_flag (c : Config) (w : World) (fuel : Nat)
    (name : String) (opts : RunOptions) (s : ExecState)
    (hvis : c.ResolveCommandName name ∉ s.visiting)
    (hlook : lookupStr (c.ResolveCommandName name) c.commands = none) :
    (c.FuzzyMatch name ≠ "" →
      runCommandWithVisited c w (fuel + 1) name opts s =
        runCommandWithVisited c w fuel (c.FuzzyMatch name) opts
          (if ¬(opts.quiet = true) then emit s (Ev.fuzzyMatched name (c.FuzzyMatch name))
           else s)) ∧
    (c.FuzzyMatch name = "" →
      runCommandWithVisited c w (fuel + 1) name opts s =
        some (Except.error (RunErr.notFound name (c.findSimilarCommands name)), s)) := by
  constructor <;> intro hf <;> rw [runCommandWithVisited] <;> simp [hvis, hlook, hf]

/-- C1 counterexample: the dependency-mode invocation of the misspelled name
    biuld (no such task, no such alias) is fuzzy-resolved to build and
    succeeds — it does not fail with NotFound, contradicting the claim that
    fuzzy matching never applies when the is-dependency flag is set. -/
theorem c1_counterexample :
    (runCommandWithVisited c1cfg wDflt 2 "biuld" { isDependency := true } {}).map
      (fun p => (p.1, p.2.trace)) =
    some (Except.ok (),
      [Ev.fuzzyMatched "biuld" "build", Ev.bodyAttempt "build" 1 [] "/",
       Ev.execLine "bcmd" true]) := by decide

/-- Witness: the amended C1 theorem applied to the counterexample
    configuration, in dependency mode. -/
theorem c1_fuzzy_fallback_ignores_dependency_flag_witness :
    runCommandWithVisited c1cfg wDflt 2 "biuld" { isDependency := true } {} =
      runCommandWithVisited c1cfg wDflt 1 (c1cfg.FuzzyMatch "biuld") { isDependency := true }
        (if ¬(({ isDependency := true } : RunOptions).quiet = true) then
          emit {} (Ev.fuzzyMatched "biuld" (c1cfg.FuzzyMatch "biuld"))
        else {}) :=
  (c1_fuzzy_fallback_ignores_dependency_flag c1cfg wDflt 1 "biuld" { isDependency := true } {}
    (by decide) (by decide)).1 (by decide)

theorem runPostHooks_trace_mono {runF : RunF} (hT : TraceMono runF) :
    ∀ (hooks : List String) (parent : String) (opts : RunOptions) (s s2 : ExecState),
      runPostHooks runF hooks parent opts s = some s2 → ∃ d, s2.trace = s.trace ++ d := by
  intro hooks
  induction hooks with
  | nil =>
    intro parent opts s s2 h
    cases h
    exact ⟨[], by simp⟩
  | cons hk rest ih =>
    intro parent opts s s2 h
    rw [runPostHooks] at h
    split at h
    case h_1 => cases h
    case h_2 r st2 heq =>
      obtain ⟨d1, hd1⟩ := hT hk _ _ r st2 heq
      obtain ⟨d2, hd2⟩ := ih parent opts st2 s2 h
      exact ⟨(Ev.postHook parent hk s.visiting s.cwd :: d1) ++ d2, by
        simp [hd2, hd1, emit]⟩

theorem runPostHooks_ignores_hook_results (runF runF2 : RunF)
    (hagree : ∀ n o st, (runF n o st).map Prod.snd = (runF2 n o st).map Prod.snd) :
    ∀ (hooks : List String) (parent : String) (opts : RunOptions) (s : ExecState),
      runPostHooks runF hooks parent opts s = runPostHooks runF2 hooks parent opts s := by
  intro hooks
  induction hooks with
  | nil => intro parent opts s; rfl
  | cons hk rest ih =>
    intro parent opts s
    rw [runPostHooks, runPostHooks]
    have h := hagree hk { opts with args := [], isDependency := true }
      (emit s (Ev.postHook parent hk s.visiting s.cwd))
    cases hr : runF hk { opts with args := [], isDependency := true }
        (emit s (Ev.postHook parent hk s.visiting s.cwd)) with
    | none =>
      rw [hr] at h
      cases hr2 : runF2 hk { opts with args := [], isDependency := true }
          (emit s (Ev.postHook parent hk s.visiting s.cwd)) with
      | none => rfl
      | some p2 => rw [hr2] at h; simp at h
    | some p =>
      rw [hr] at h
      cases hr2 : runF2 hk { opts with args := [], isDependency := true }
          (emit s (Ev.postHook parent hk s.visiting s.cwd)) with
      | none => rw [hr2] at h; simp at h
      | some p2 =>
        rw [hr2] at h
        obtain ⟨r1, st1⟩ := p
        obtain ⟨r2, st2⟩ := p2
        have hsnd : st1 = st2 := by simpa using h
        subst hsnd
        exact ih parent opts st1

theorem runPostHooks_events {runF : RunF} (hT : TraceMono runF) :
    ∀ (hooks : List String) (parent : String) (opts : RunOptions) (s s2 : ExecState),
      runPostHooks runF hooks parent opts s = some s2 →
      ∀ hk ∈ hooks, ∃ vs cw, Ev.postHook parent hk vs cw ∈ s2.trace := by
  intro hooks
  induction hooks with
  | nil =>
    intro parent opts s s2 h hk hmem
    cases hmem
  | cons hk0 rest ih =>
    intro parent opts s s2 h hk hmem
    rw [runPostHooks] at h
    split at h
    case h_1 => cases h
    case h_2 r st2 heq =>
      cases hmem with
      | head =>
        refine ⟨s.visiting, s.cwd, ?_⟩
        obtain ⟨d1, hd1⟩ := hT hk0 _ _ r st2 heq
        obtain ⟨d2, hd2⟩ := runPostHooks_trace_mono hT rest parent opts st2 s2 h
        rw [hd2, hd1]
        simp [emit]
      | tail _ hmem2 => exact ih parent opts st2 s2 h hk hmem2

/-- C2: for a top-level (non-dependency) invocation of a task declaring
    post-hooks, the post-hooks run exactly when the body's final error is nil
    or post_always is set: on success the result is ok and the cache step
    follows; on failure with post_always the hooks still run and the result
    remains the body's failure; otherwise the hooks are skipped.  The hook
    invocations' own results are discarded (two engines agreeing on states
    while disagreeing on hook success give identical outcomes), so a hook
    failure never changes the invocation's result; and one postHook event is
    recorded for every declared hook whenever the hook pass completes. -/
theorem c2_post_hook_semantics (runF runF2 : RunF) (c : Config) (w : World)
    (rname : String) (cmd : Command) (opts : RunOptions) (lastErr : Option RunErr)
    (e : RunErr) (s1 : ExecState)
    (htop : opts.isDependency = false) (hpost : cmd.post ≠ [])
    (hagree : ∀ n o st, (runF n o st).map Prod.snd = (runF2 n o st).map Prod.snd)
    (hT : TraceMono runF) :
    (lastErr = none →
      afterBody runF c w rname cmd opts lastErr s1 =
        (runPostHooks runF cmd.post rname opts s1).map (fun s2 =>
          (Except.ok (),
            if cmd.ifChanged ≠ [] ∧ ¬(opts.dryRun = true) then
              updateIfChangedCache w s2 rname cmd.ifChanged
            else s2))) ∧
    (lastErr = some e → cmd.postAlways = true →
      afterBody runF c w rname cmd opts lastErr s1 =
        (runPostHooks runF cmd.post rname opts s1).map (fun s2 => (Except.error e, s2))) ∧
    (lastErr = some e → cmd.postAlways = false →
      afterBody runF c w rname cmd opts lastErr s1 = some (Except.error e, s1)) ∧
    (runPostHooks runF cmd.post rname opts s1 = runPostHooks runF2 cmd.post rname opts s1) ∧
    (∀ s2, runPostHooks runF cmd.post rname opts s1 = some s2 →
      ∀ hk ∈ cmd.post, ∃ vs cw, Ev.postHook rname hk vs cw ∈ s2.trace) := by
  refine ⟨?_, ?_, ?_, ?_, ?_⟩
  · intro hE
    subst hE
    rw [afterBody]
    rw [if_pos ⟨hpost, by simp [htop], Or.inl rfl⟩]
    cases hp : runPostHooks runF cmd.post rname opts s1 <;> simp
  · intro hE hA
    subst hE
    rw [afterBody]
    rw [if_pos ⟨hpost, by simp [htop], Or.inr hA⟩]
    cases hp : runPostHooks runF cmd.post rname opts s1 <;> simp
  · intro hE hA
    subst hE
    rw [afterBody]
    rw [if_neg]
    intro ⟨h1, h2, h3⟩
    cases h3 with
    | inl h4 => cases h4
    | inr h4 => rw [hA] at h4; cases h4
  · exact runPostHooks_ignores_hook_results runF runF2 hagree cmd.post rname opts s1
  · intro s2 hp hk hmem
    exact runPostHooks_events hT cmd.post rname opts s1 s2 hp hk hmem

/-- A task with one post-hook and post_always unset, for the C2 witness. -/
def c2cmd : Command := { run := { runDefault := ["b"] }, post := ["p"] }

/-- An engine stub that succeeds without touching the state. -/
def idRunF : RunF := fun _ _ st => some (Except.ok (), st)

/-- Witness: with post_always unset and a failing body, the post-hook pass is
    skipped and the failure is propagated unchanged. -/
theorem c2_post_hook_semantics_witness :
    afterBody idRunF {} wDflt "t" c2cmd {} (some (RunErr.commandFailed "x")) {} =
      some (Except.error (RunErr.commandFailed "x"), {}) :=
  (c2_post_hook_semantics idRunF idRunF {} wDflt "t" c2cmd {}
    (some (RunErr.commandFailed "x")) (RunErr.commandFailed "x") {} rfl (by decide)
    (fun n o st => rfl)
    (fun n o st r st' h => by cases h; exact ⟨[], by simp⟩)).2.2.1 rfl rfl

/-- Whether an event is a body attempt of the named task. -/
def isBodyAttempt (rname : String) : Ev → Bool
  | Ev.bodyAttempt n _ _ _ => n == rname
  | _ => false

/-- Number of body attempts of the named task recorded in a trace. -/
def countBody (rname : String) (l : List Ev) : Nat :=
  (l.filter (isBodyAttempt rname)).length

theorem execOneLine_countBody (c : Config) (w : World) (rname : String)
    (extraVars : List (String × String)) (opts : RunOptions) (line : String)
    (s : ExecState) :
    countBody rname ((execOneLine c w extraVars opts line s).2.trace) =
      countBody rname s.trace := by
  rw [execOneLine]
  by_cases hd : opts.dryRun = true
  · simp [hd, emit, countBody, isBodyAttempt, List.filter_append]
  · cases hok : w.execOk s.execCount <;>
      simp [hd, hok, emit, countBody, isBodyAttempt, List.filter_append]

theorem executeCommands_countBody (c : Config) (w : World) (rname : String)
    (runCommands : List String) (extraVars : List (String × String)) (timeout : Nat)
    (opts : RunOptions) :
    ∀ s : ExecState,
      countBody rname ((executeCommands c w runCommands extraVars timeout opts s).2.trace) =
        countBody rname s.trace := by
  induction runCommands with
  | nil => intro s; rfl
  | cons line rest ih =>
    intro s
    rw [executeCommands]
    split
    case h_1 u s2 heq =>
      have h2 := execOneLine_countBody c w rname extraVars opts line s
      rw [heq] at h2
      rw [ih s2]
      exact h2
    case h_2 r s2 heq =>
      have h2 := execOneLine_countBody c w rname extraVars opts line s
      rw [heq] at h2
      exact h2

theorem attemptLoop_countBody_le (c : Config) (w : World) (rname : String)
    (runCommands : List String) (extraVars : List (String × String)) (timeout : Nat)
    (opts : RunOptions) (maxAttempts delay : Nat) :
    ∀ (remaining attempt : Nat) (lastErr : Option RunErr) (s : ExecState),
      countBody rname ((attemptLoop c w rname runCommands extraVars timeout opts
        maxAttempts delay remaining attempt lastErr s).2.trace) ≤
        countBody rname s.trace + remaining := by
  intro remaining
  induction remaining with
  | zero => intro attempt lastErr s; rw [attemptLoop]; simp
  | succ n ih =>
    intro attempt lastErr s
    rw [attemptLoop]
    have hpre : ∀ s1 : ExecState, countBody rname s1.trace = countBody rname s.trace →
        countBody rname ((match executeCommands c w runCommands extraVars timeout opts
            (emit s1 (Ev.bodyAttempt rname attempt s1.visiting s1.cwd)) with
          | (Except.ok _, s3) => ((none : Option RunErr), s3)
          | (Except.error e, s3) =>
            attemptLoop c w rname runCommands extraVars timeout opts maxAttempts delay
              n (attempt + 1) (some e) s3).2.trace) ≤
          countBody rname s.trace + (n + 1) := by
      intro s1 h1
      have hbody : countBody rname
          (emit s1 (Ev.bodyAttempt rname attempt s1.visiting s1.cwd)).trace =
          countBody rname s.trace + 1 := by
        simp only [countBody] at h1 ⊢
        simp only [emit, List.filter_append, List.length_append]
        simp [isBodyAttempt]
        omega
      split
      case h_1 u s3 hres =>
        have he := executeCommands_countBody c w rname runCommands extraVars timeout opts
          (emit s1 (Ev.bodyAttempt rname attempt s1.visiting s1.cwd))
        rw [hres] at he
        have h3 : countBody rname s3.trace = countBody rname s.trace + 1 := by
          rw [← hbody]; exact he
        show countBody rname s3.trace ≤ countBody rname s.trace + (n + 1)
        omega
      case h_2 e s3 hres =>
        have he := executeCommands_countBody c w rname runCommands extraVars timeout opts
          (emit s1 (Ev.bodyAttempt rname attempt s1.visiting s1.cwd))
        rw [hres] at he
        have h3 : countBody rname s3.trace = countBody rname s.trace + 1 := by
          rw [← hbody]; exact he
        have h4 := ih (attempt + 1) (some e) s3
        omega
    apply hpre
    by_cases h1 : attempt > 1 <;> by_cases h2 : ¬(opts.quiet = true) <;>
      by_cases h3 : delay > 0 <;>
      simp [h1, h2, h3, emit, countBody, List.filter_append, isBodyAttempt]

theorem attemptLoop_stops_on_first_success (c : Config) (w : World) (rname : String)
    (runCommands : List String) (extraVars : List (String × String)) (timeout : Nat)
    (opts : RunOptions) (maxAttempts delay remaining : Nat) (lastErr : Option RunErr)
    (s s3 : ExecState)
    (h : executeCommands c w runCommands extraVars timeout opts
      (emit s (Ev.bodyAttempt rname 1 s.visiting s.cwd)) = (Except.ok (), s3)) :
    attemptLoop c w rname runCommands extraVars timeout opts maxAttempts delay
      (remaining + 1) 1 lastErr s = (none, s3) := by
  rw [attemptLoop]
  have h1 : ¬ ((1 : Nat) > 1) := by omega
  simp only [if_neg h1, h]

theorem attemptLoop_error_from_attempt (c : Config) (w : World) (rname : String)
    (runCommands : List String) (extraVars : List (String × String)) (timeout : Nat)
    (opts : RunOptions) (maxAttempts delay : Nat) :
    ∀ (remaining attempt : Nat) (lastErr : Option RunErr) (s : ExecState)
      (e : RunErr) (s2 : ExecState),
      attemptLoop c w rname runCommands extraVars timeout opts maxAttempts delay
        remaining attempt lastErr s = (some e, s2) →
      (lastErr = some e ∧ s2 = s) ∨
      ∃ t, executeCommands c w runCommands extraVars timeout opts t =
        (Except.error e, s2) := by
  intro remaining
  induction remaining with
  | zero =>
    intro attempt lastErr s e s2 h
    rw [attemptLoop] at h
    cases h
    exact Or.inl ⟨rfl, rfl⟩
  | succ n ih =>
    intro attempt lastErr s e s2 h
    rw [attemptLoop] at h
    have hpre : ∀ s1 : ExecState,
        (match executeCommands c w runCommands extraVars timeout opts
            (emit s1 (Ev.bodyAttempt rname attempt s1.visiting s1.cwd)) with
          | (Except.ok _, s3) => ((none : Option RunErr), s3)
          | (Except.error e2, s3) =>
            attemptLoop c w rname runCommands extraVars timeout opts maxAttempts delay
              n (attempt + 1) (some e2) s3) = (some e, s2) →
        (lastErr = some e ∧ s2 = s) ∨
        ∃ t, executeCommands c w runCommands extraVars timeout opts t =
          (Except.error e, s2) := by
      intro s1 hm
      rcases hres : executeCommands c w runCommands extraVars timeout opts
          (emit s1 (Ev.bodyAttempt rname attempt s1.visiting s1.cwd)) with ⟨r, s3⟩
      rw [hres] at hm
      cases r with
      | ok u => simp at hm
      | error e2 =>
        rcases ih (attempt + 1) (some e2) s3 e s2 hm with ⟨h1, h2⟩ | ⟨t, ht⟩
        · subst h2
          have he : e2 = e := by injection h1
          subst he
          exact Or.inr ⟨_, hres⟩
        · exact Or.inr ⟨t, ht⟩
    exact hpre _ h

/-- Task with retry 3 and a 5-unit retry delay, from the retry scenario. -/
def rCfg : Config :=
  { commands := [("t", { run := { runDefault := ["b"] }, retry := 3, retryDelay := "5" })] }

/-- A world whose first two spawned commands fail and whose later ones
    succeed. -/
def wR : World := { execOk := fun i => decide (2 ≤ i) }

/-- C3: the retry loop makes at most as many body attempts as it is given
    (the engine passes maxAttempts, computed as retry + 1 when retry is
    positive and 1 otherwise), stops at the first successful attempt, and an
    error result is always the error of an actual attempt whose final state
    is returned — the last one.  Instantiated: the spec's scenario retry = 3
    with a body failing twice then succeeding yields overall success with
    exactly three recorded attempts, each retry announced as attempt k of 4
    and preceded by the 5-unit sleep. -/
theorem c3_retry_semantics (c : Config) (w : World) (rname : String)
    (runCommands : List String) (extraVars : List (String × String)) (timeout : Nat)
    (opts : RunOptions) (maxAttempts delay : Nat) :
    (∀ (remaining attempt : Nat) (lastErr : Option RunErr) (s : ExecState),
      countBody rname ((attemptLoop c w rname runCommands extraVars timeout opts
        maxAttempts delay remaining attempt lastErr s).2.trace) ≤
        countBody rname s.trace + remaining) ∧
    (∀ (remaining : Nat) (lastErr : Option RunErr) (s s3 : ExecState),
      executeCommands c w runCommands extraVars timeout opts
        (emit s (Ev.bodyAttempt rname 1 s.visiting s.cwd)) = (Except.ok (), s3) →
      attemptLoop c w rname runCommands extraVars timeout opts maxAttempts delay
        (remaining + 1) 1 lastErr s = (none, s3)) ∧
    (∀ (remaining attempt : Nat) (s : ExecState) (e : RunErr) (s2 : ExecState),
      attemptLoop c w rname runCommands extraVars timeout opts maxAttempts delay
        remaining attempt none s = (some e, s2) →
      ∃ t, executeCommands c w runCommands extraVars timeout opts t =
        (Except.error e, s2)) ∧
    ((runCommandWithVisited rCfg wR 1 "t" {} {}).map (fun p => (p.1, p.2.trace)) =
      some (Except.ok (),
        [Ev.bodyAttempt "t" 1 [] "/", Ev.execLine "b" false,
         Ev.retryAnnounce "t" 2 4, Ev.retrySleep 5,
         Ev.bodyAttempt "t" 2 [] "/", Ev.execLine "b" false,
         Ev.retryAnnounce "t" 3 4, Ev.retrySleep 5,
         Ev.bodyAttempt "t" 3 [] "/", Ev.execLine "b" true])) := by
  refine ⟨?_, ?_, ?_, ?_⟩
  · exact attemptLoop_countBody_le c w rname runCommands extraVars timeout opts
      maxAttempts delay
  · intro remaining lastErr s s3 h
    exact attemptLoop_stops_on_first_success c w rname runCommands extraVars timeout opts
      maxAttempts delay remaining lastErr s s3 h
  · intro remaining attempt s e s2 h
    rcases attemptLoop_error_from_attempt c w rname runCommands extraVars timeout opts
        maxAttempts delay remaining attempt none s e s2 h with ⟨h1, _⟩ | h2
    · cases h1
    · exact h2
  · decide

/-- Witness: the concrete retry scenario of the claim, as derived from the
    C3 theorem. -/
theorem c3_retry_semantics_witness :
    (runCommandWithVisited rCfg wR 1 "t" {} {}).map (fun p => (p.1, p.2.trace)) =
      some (Except.ok (),
        [Ev.bodyAttempt "t" 1 [] "/", Ev.execLine "b" false,
         Ev.retryAnnounce "t" 2 4, Ev.retrySleep 5,
         Ev.bodyAttempt "t" 2 [] "/", Ev.execLine "b" false,
         Ev.retryAnnounce "t" 3 4, Ev.retrySleep 5,
         Ev.bodyAttempt "t" 3 [] "/", Ev.execLine "b" true]) :=
  (c3_retry_semantics {} wDflt "" [] [] 0 {} 0 0).2.2.2

/-- A task with a declared working directory, a pre-hook, a dependency, a
    post-hook and change patterns, each hook being its own task. -/
def tCfg : Config :=
  { configDir := "/cfg",
    commands :=
      [("t", { run := { runDefault := ["body"] }, dir := "sub", pre := ["q"],
               dep := ["a"], post := ["h"], ifChanged := ["src"] }),
       ("q", { run := { runDefault := ["qcmd"] } }),
       ("a", { run := { runDefault := ["acmd"] } }),
       ("h", { run := { runDefault := ["hcmd"] } })] }

/-- A world whose change fingerprint is the observing working directory, so
    that where a fingerprint is taken from is visible in the cache. -/
def wT : World := { hashFiles := fun cwd _ => cwd }

/-- A start state rooted in a recognisable original directory. -/
def st0 : ExecState := { cwd := "/orig" }

/-- The event trace of running task t of tCfg. -/
def tTrace : List Ev :=
  [Ev.preHook "t" "q" [],
   Ev.bodyAttempt "q" 1 [] "/orig",
   Ev.execLine "qcmd" true,
   Ev.depRun "t" "a" ["t"],
   Ev.bodyAttempt "a" 1 ["t"] "/orig",
   Ev.execLine "acmd" true,
   Ev.chdirTo "/cfg/sub",
   Ev.bodyAttempt "t" 1 [] "/cfg/sub",
   Ev.execLine "body" true,
   Ev.postHook "t" "h" [] "/cfg/sub",
   Ev.bodyAttempt "h" 1 [] "/cfg/sub",
   Ev.execLine "hcmd" true,
   Ev.cacheUpdated "t" "t:src" "/cfg/sub" "/cfg/sub"]

/-- C7 counterexample: the declared directory sub is interpolated and entered
    relative to the config directory (chdirTo /cfg/sub) and the body runs
    there, but the deferred restore runs only when the invocation returns:
    the post-hook and the change-cache update observe the task directory
    /cfg/sub, not the original /orig — refuting "for the duration of body
    execution only" and "steps after the body observe the original working
    directory".  The directory is restored by return time (final cwd /orig)
    and the persisted fingerprint was taken from /cfg/sub. -/
theorem c7_counterexample :
    (runCommandWithVisited tCfg wT 5 "t" {} st0).map
      (fun p => (p.1, p.2.trace, p.2.cwd, p.2.cache)) =
      some (Except.ok (), tTrace, "/orig", [("t:src", "/cfg/sub")]) ∧
    Ev.postHook "t" "h" [] "/cfg/sub" ∈ tTrace ∧
    Ev.cacheUpdated "t" "t:src" "/cfg/sub" "/cfg/sub" ∈ tTrace ∧
    (∀ vs, Ev.postHook "t" "h" vs "/orig" ∉ tTrace) ∧
    (∀ k v, Ev.cacheUpdated "t" k v "/orig" ∉ tTrace) := by
  refine ⟨by decide, by decide, by decide, ?_, ?_⟩
  · intro vs hmem
    simp [tTrace] at hmem
  · intro k v hmem
    simp [tTrace] at hmem

/-- The failing-body variant: same directory, body exits nonzero. -/
def failCfg : Config :=
  { configDir := "/cfg",
    commands := [("t", { run := { runDefault := ["b"] }, dir := "sub" })] }

/-- A world where every spawned command fails. -/
def wF : World := { execOk := fun _ => false }

/-- C7 amended: the working directory is restored by the time the invocation
    returns, unconditionally — on success and on every failure path — because
    the deferred restore runs at function exit; it is NOT restored before the
    post-body steps, which run inside the task directory (c7_counterexample).
    Every invocation of the engine preserves the caller's working
    directory. -/
theorem c7_dir_restored_on_return (c : Config) (w : World) (fuel : Nat) (n : String)
    (o : RunOptions) (st : ExecState) (r : Except RunErr Unit) (st' : ExecState)
    (h : runCommandWithVisited c w fuel n o st = some (r, st')) : st'.cwd = st.cwd :=
  runCmd_cwd c w fuel n o st r st' h

/-- Witness: a failing body in a declared directory still returns with the
    original working directory restored. -/
theorem c7_dir_restored_on_return_witness :
    ({ visiting := [], cwd := "/orig", env := [], cache := [], execCount := 1,
       trace := [Ev.chdirTo "/cfg/sub", Ev.bodyAttempt "t" 1 [] "/cfg/sub",
         Ev.execLine "b" false] } : ExecState).cwd = st0.cwd :=
  c7_dir_restored_on_return failCfg wF 1 "t" {} st0
    (Except.error (RunErr.commandFailed "b")) _ (by decide)

/-- The engine never removes a name from the visiting set across an
    invocation (membership is monotone). -/
def PreservesVisitingMem (runF : RunF) : Prop :=
  ∀ (x : String) n o st r st', runF n o st = some (r, st') →
    x ∈ st.visiting → x ∈ st'.visiting

theorem mem_setMark {v : List String} {x y : String} (h : x ∈ v) : x ∈ setMark v y := by
  rw [setMark]
  split
  · exact h
  · exact List.mem_append_left _ h

theorem mem_setUnmark {v : List String} {x y : String} (h : x ∈ v) (hne : x ≠ y) :
    x ∈ setUnmark v y := by
  rw [setUnmark]
  exact List.mem_filter.mpr ⟨h, by simp [hne]⟩

theorem foldl_visiting_inv {α : Type} {f : ExecState → α → ExecState}
    (hf : ∀ st x, (f st x).visiting = st.visiting) :
    ∀ (l : List α) (s : ExecState), (l.foldl f s).visiting = s.visiting := by
  intro l
  induction l with
  | nil => intro s; rfl
  | cons a t ih => intro s; rw [List.foldl_cons, ih, hf]

theorem loadEnvFiles_visiting (c : Config) (w : World) (opts : RunOptions)
    (files : List String) (s : ExecState) :
    (loadEnvFiles c w opts files s).visiting = s.visiting := by
  apply foldl_visiting_inv
  intro st file
  by_cases hd : opts.dryRun = true
  · simp [hd]
  · simp only [if_neg hd]
    apply foldl_visiting_inv
    intro st2 kv
    rfl

theorem applyEnvList_visiting (c : Config) (w : World) (opts : RunOptions)
    (entries : List (String × String)) (s : ExecState) :
    (applyEnvList c w opts entries s).visiting = s.visiting := by
  apply foldl_visiting_inv
  intro st kv
  by_cases hd : opts.dryRun = true
  · simp [hd]
  · simp [if_neg hd]

theorem execOneLine_visiting (c : Config) (w : World) (extraVars : List (String × String))
    (opts : RunOptions) (line : String) (s : ExecState) :
    ((execOneLine c w extraVars opts line s).2).visiting = s.visiting := by
  rw [execOneLine]
  by_cases hd : opts.dryRun = true
  · simp [hd, emit]
  · simp only [if_neg hd]
    cases hok : w.execOk s.execCount <;> simp [emit, hok]

theorem executeCommands_visiting (c : Config) (w : World)
    (extraVars : List (String × String)) (timeout : Nat) (opts : RunOptions) :
    ∀ (runCommands : List String) (s : ExecState),
      ((executeCommands c w runCommands extraVars timeout opts s).2).visiting =
        s.visiting := by
  intro runCommands
  induction runCommands with
  | nil => intro s; rfl
  | cons line rest ih =>
    intro s
    rw [executeCommands]
    split
    case h_1 u s2 heq =>
      rw [ih s2]
      have h2 := execOneLine_visiting c w extraVars opts line s
      rw [heq] at h2
      exact h2
    case h_2 r s2 heq =>
      have h2 := execOneLine_visiting c w extraVars opts line s
      rw [heq] at h2
      exact h2

theorem attemptLoop_visiting (c : Config) (w : World) (rname : String)
    (runCommands : List String) (extraVars : List (String × String)) (timeout : Nat)
    (opts : RunOptions) (maxAttempts delay : Nat) :
    ∀ (remaining attempt : Nat) (lastErr : Option RunErr) (s : ExecState),
      (attemptLoop c w rname runCommands extraVars timeout opts maxAttempts delay
        remaining attempt lastErr s).2.visiting = s.visiting := by
  intro remaining
  induction remaining with
  | zero => intro attempt lastErr s; rfl
  | succ n ih =>
    intro attempt lastErr s
    rw [attemptLoop]
    have hpre : ∀ (s1 : ExecState), s1.visiting = s.visiting →
        (match executeCommands c w runCommands extraVars timeout opts
            (emit s1 (Ev.bodyAttempt rname attempt s1.visiting s1.cwd)) with
          | (Except.ok _, s3) => ((none : Option RunErr), s3)
          | (Except.error e, s3) =>
            attemptLoop c w rname runCommands extraVars timeout opts maxAttempts delay
              n (attempt + 1) (some e) s3).2.visiting = s.visiting := by
      intro s1 h1
      rcases hres : executeCommands c w runCommands extraVars timeout opts
          (emit s1 (Ev.bodyAttempt rname attempt s1.visiting s1.cwd)) with ⟨r, s3⟩
      have h3 : s3.visiting = s.visiting := by
        have := executeCommands_visiting c w extraVars timeout opts runCommands
          (emit s1 (Ev.bodyAttempt rname attempt s1.visiting s1.cwd))
        rw [hres] at this
        rw [this, show (emit s1 (Ev.bodyAttempt rname attempt s1.visiting s1.cwd)).visiting
          = s1.visiting from rfl, h1]
      cases r with
      | ok u => exact h3
      | error e => rw [ih (attempt + 1) (some e) s3, h3]
    apply hpre
    by_cases h1 : attempt > 1 <;> by_cases h2 : ¬(opts.quiet = true) <;>
      by_cases h3 : delay > 0 <;> simp [h1, h2, h3, emit]

theorem runPreHooks_vis {runF : RunF} (hF : PreservesVisitingMem runF) (x : String) :
    ∀ (hooks : List String) (parent : String) (opts : RunOptions) (s : ExecState)
      (r : Except RunErr Unit) (s2 : ExecState),
      runPreHooks runF hooks parent opts s = some (r, s2) →
      x ∈ s.visiting → x ∈ s2.visiting := by
  intro hooks
  induction hooks with
  | nil =>
    intro parent opts s r s2 h hx
    cases h
    exact hx
  | cons hook rest ih =>
    intro parent opts s r s2 h hx
    rw [runPreHooks] at h
    rcases hres : runF hook { opts with args := [], isDependency := true }
        (emit s (Ev.preHook parent hook s.visiting)) with _ | ⟨rx, sx⟩
    · rw [hres] at h; cases h
    · rw [hres] at h
      have h1 := hF x _ _ _ _ _ hres hx
      cases rx with
      | ok u => exact ih parent opts sx r s2 h h1
      | error e =>
        cases h
        exact h1

theorem runPostHooks_vis {runF : RunF} (hF : PreservesVisitingMem runF) (x : String) :
    ∀ (hooks : List String) (parent : String) (opts : RunOptions) (s s2 : ExecState),
      runPostHooks runF hooks parent opts s = some s2 →
      x ∈ s.visiting → x ∈ s2.visiting := by
  intro hooks
  induction hooks with
  | nil =>
    intro parent opts s s2 h hx
    cases h
    exact hx
  | cons hook rest ih =>
    intro parent opts s s2 h hx
    rw [runPostHooks] at h
    rcases hres : runF hook { opts with args := [], isDependency := true }
        (emit s (Ev.postHook parent hook s.visiting s.cwd)) with _ | ⟨rx, sx⟩
    · rw [hres] at h; cases h
    · rw [hres] at h
      exact ih parent opts sx s2 h (hF x _ _ _ _ _ hres hx)

theorem runDepsSeq_vis {runF : RunF} (hF : PreservesVisitingMem runF) (x : String) :
    ∀ (deps : List String) (parent : String) (opts : RunOptions) (s : ExecState)
      (r : Except RunErr Unit) (s2 : ExecState),
      runDepsSeq runF deps parent opts s = some (r, s2) →
      x ∈ s.visiting → x ∈ s2.visiting := by
  intro deps
  induction deps with
  | nil =>
    intro parent opts s r s2 h hx
    cases h
    exact hx
  | cons dep rest ih =>
    intro parent opts s r s2 h hx
    rw [runDepsSeq] at h
    rcases hres : runF dep { opts with args := [], isDependency := true }
        (emit s (Ev.depRun parent dep s.visiting)) with _ | ⟨rx, sx⟩
    · rw [hres] at h; cases h
    · rw [hres] at h
      have h1 := hF x _ _ _ _ _ hres hx
      cases rx with
      | ok u => exact ih parent opts sx r s2 h h1
      | error e =>
        cases h
        exact h1

theorem runDepsParGo_vis (runF : RunF) (x : String) :
    ∀ (deps : List String) (parent : String) (opts : RunOptions)
      (baseVisiting : List String) (firstErr : Option RunErr) (s : ExecState)
      (r : Except RunErr Unit) (s2 : ExecState),
      runDepsParGo runF parent opts baseVisiting deps firstErr s = some (r, s2) →
      x ∈ baseVisiting → x ∈ s2.visiting := by
  intro deps
  induction deps with
  | nil =>
    intro parent opts baseVisiting firstErr s r s2 h hx
    cases firstErr with
    | some e => cases h; exact hx
    | none => cases h; exact hx
  | cons dep rest ih =>
    intro parent opts baseVisiting firstErr s r s2 h hx
    rw [runDepsParGo] at h
    rcases hres : runF dep { opts with args := [], isDependency := true }
        (emit { s with visiting := baseVisiting } (Ev.depRun parent dep baseVisiting))
      with _ | ⟨rx, sx⟩
    · rw [hres] at h; cases h
    · rw [hres] at h
      exact ih parent opts baseVisiting _ sx r s2 h hx

theorem afterBody_vis {runF : RunF} (hF : PreservesVisitingMem runF) (x : String)
    (c : Config) (w : World) (rname : String) (cmd : Command) (opts : RunOptions)
    (lastErr : Option RunErr) (s1 : ExecState) (r : Except RunErr Unit) (s2 : ExecState)
    (h : afterBody runF c w rname cmd opts lastErr s1 = some (r, s2)) :
    x ∈ s1.visiting → x ∈ s2.visiting := by
  intro hx
  rw [afterBody] at h
  split at h
  case h_1 heq =>
    cases h
  case h_2 sx heq =>
    have hvx : x ∈ sx.visiting := by
      split at heq
      · exact runPostHooks_vis hF x cmd.post rname opts s1 sx heq hx
      · cases heq
        exact hx
    split at h
    · cases h
      exact hvx
    · split at h
      case isTrue =>
        cases h
        exact hvx
      case isFalse =>
        cases h
        exact hvx

theorem finishAfterDir_vis {runF : RunF} (hF : PreservesVisitingMem runF) (x : String)
    (c : Config) (w : World) (rname : String) (cmd : Command) (runCommands : List String)
    (extraVars : List (String × String)) (opts : RunOptions) (s : ExecState)
    (r : Except RunErr Unit) (s2 : ExecState)
    (h : finishAfterDir runF c w rname cmd runCommands extraVars opts s = some (r, s2)) :
    x ∈ s.visiting → x ∈ s2.visiting := by
  intro hx
  rw [finishAfterDir] at h
  split at h
  · cases h
    exact hx
  · split at h
    · cases h
      exact hx
    · apply afterBody_vis hF x c w rname cmd opts _ _ r s2 h
      rw [attemptLoop_visiting]
      exact hx

theorem afterEnv_vis {runF : RunF} (hF : PreservesVisitingMem runF) (x : String)
    (c : Config) (w : World) (rname : String) (cmd : Command) (runCommands : List String)
    (opts : RunOptions) (s2 : ExecState) (r : Except RunErr Unit) (s' : ExecState)
    (h : afterEnv runF c w rname cmd runCommands opts s2 = some (r, s')) :
    x ∈ s2.visiting → x ∈ s'.visiting := by
  intro hx
  rw [afterEnv] at h
  split at h
  · exact finishAfterDir_vis hF x c w rname cmd runCommands _ opts s2 r s' h hx
  · split at h
    · exact finishAfterDir_vis hF x c w rname cmd runCommands _ opts s2 r s' h hx
    · split at h
      · split at h
        case h_1 => cases h
        case h_2 rx s4 heq =>
          cases h
          have h4 := finishAfterDir_vis hF x c w rname cmd runCommands _ opts _ _ _ heq hx
          exact h4
      · cases h
        exact hx

theorem finishRun_vis {runF : RunF} (hF : PreservesVisitingMem runF) (x : String)
    (c : Config) (w : World) (rname : String) (cmd : Command) (runCommands : List String)
    (opts : RunOptions) (s : ExecState) (r : Except RunErr Unit) (s2 : ExecState)
    (h : finishRun runF c w rname cmd runCommands opts s = some (r, s2)) :
    x ∈ s.visiting → x ∈ s2.visiting := by
  intro hx
  rw [finishRun] at h
  apply afterEnv_vis hF x c w rname cmd runCommands opts _ r s2 h
  rw [applyEnvList_visiting, applyEnvList_visiting]
  exact hx

theorem prePhase_vis {runF : RunF} (hF : PreservesVisitingMem runF) (x : String)
    (c : Config) (w : World) (rname : String) (cmd : Command) (opts : RunOptions)
    (s : ExecState) (r : Except RunErr Unit) (s3 : ExecState)
    (h : prePhase runF c w rname cmd opts s = some (r, s3)) :
    x ∈ s.visiting → x ∈ s3.visiting := by
  intro hx
  rw [prePhase] at h
  have hload : x ∈ (loadEnvFiles c w opts cmd.envFile
      (loadEnvFiles c w opts c.settings.envFile s)).visiting := by
    rw [loadEnvFiles_visiting, loadEnvFiles_visiting]
    exact hx
  split at h
  · exact runPreHooks_vis hF x cmd.pre rname opts _ r s3 h hload
  · cases h
    exact hload

theorem depPhase_vis {runF : RunF} (hF : PreservesVisitingMem runF) (x : String)
    (c : Config) (rname : String) (cmd : Command) (opts : RunOptions)
    (s3 : ExecState) (r : Except RunErr Unit) (s6 : ExecState)
    (hne : x ≠ rname)
    (h : depPhase runF c rname cmd opts s3 = some (r, s6)) :
    x ∈ s3.visiting → x ∈ s6.visiting := by
  intro hx
  have hmark : x ∈ ({ s3 with visiting := setMark s3.visiting rname } : ExecState).visiting :=
    mem_setMark hx
  rw [depPhase] at h
  split at h
  · split at h
    case h_1 => cases h
    case h_2 e s5 heq =>
      cases h
      split at heq
      · rw [runDepsPar] at heq
        exact runDepsParGo_vis runF x cmd.dep rname opts _ none _ _ _ heq hmark
      · exact runDepsSeq_vis hF x cmd.dep rname opts _ _ _ heq hmark
    case h_3 u s5 heq =>
      cases h
      have h5 : x ∈ s5.visiting := by
        split at heq
        · rw [runDepsPar] at heq
          exact runDepsParGo_vis runF x cmd.dep rname opts _ none _ _ _ heq hmark
        · exact runDepsSeq_vis hF x cmd.dep rname opts _ _ _ heq hmark
      exact mem_setUnmark h5 hne
  · cases h
    exact hx

/-- Membership in the visiting set is never lost across an invocation of the
    engine: a name visiting at entry is visiting at exit, on every result. -/
theorem runCmd_visiting_mono (c : Config) (w : World) :
    ∀ fuel, PreservesVisitingMem (runCommandWithVisited c w fuel) := by
  intro fuel
  induction fuel with
  | zero =>
    intro x n o st r st' h
    simp [runCommandWithVisited] at h
  | succ fuel ih =>
    intro x n o st r st' h hx
    rw [runCommandWithVisited] at h
    split at h
    · cases h
      exact hx
    · rename_i hvis
      have hne : x ≠ c.ResolveCommandName n := fun he => hvis (he ▸ hx)
      split at h
      case h_1 heq =>
        split at h
        · have hrec := ih x _ _ _ _ _ h
          apply hrec
          split <;> exact hx
        · cases h
          exact hx
      case h_2 cmd heq =>
        split at h
        · cases h
          exact hx
        · split at h
          · cases h
            exact hx
          · split at h
            case h_1 => cases h
            case h_2 e s3 hpre =>
              cases h
              exact prePhase_vis ih x c w _ cmd o st _ _ hpre hx
            case h_3 u s3 hpre =>
              have h3 : x ∈ s3.visiting :=
                prePhase_vis ih x c w _ cmd o st _ s3 hpre hx
              split at h
              case h_1 => cases h
              case h_2 e2 s6 hdep =>
                cases h
                exact depPhase_vis ih x c _ cmd o s3 _ _ hne hdep h3
              case h_3 u2 s6 hdep =>
                exact finishRun_vis ih x c w _ cmd
                  (cmd.run.getForCurrentPlatform w.goos) o s6 r st' h
                  (depPhase_vis ih x c _ cmd o s3 _ s6 hne hdep h3)

/-- C6 counterexample: running task t of tCfg records phase snapshots showing
    the visiting set is EMPTY at the pre-hook, at the body attempt and at the
    post-hook — the resolved name t is not a member of the visiting set during
    those phases, contradicting the claim that it is marked immediately after
    the circular check and unmarked only after post-hooks.  Only the
    dependency event carries the mark. -/
theorem c6_counterexample :
    (runCommandWithVisited tCfg wT 5 "t" {} st0).map
      (fun p => (p.1, p.2.trace, p.2.visiting)) = some (Except.ok (), tTrace, []) ∧
    Ev.preHook "t" "q" [] ∈ tTrace ∧
    Ev.bodyAttempt "t" 1 [] "/cfg/sub" ∈ tTrace ∧
    Ev.postHook "t" "h" [] "/cfg/sub" ∈ tTrace ∧
    ("t" : String) ∉ ([] : List String) :=
  ⟨by decide, by decide, by decide, by decide, by decide⟩

/-- The dir-less single-task change-pattern configuration. -/
def yCfg : Config :=
  { configDir := "/cfg",
    commands := [("t", { run := { runDefault := ["b"] }, ifChanged := ["src"] })] }

/-- A start state already visiting an unrelated name z. -/
def stZ : ExecState := { cwd := "/orig", visiting := ["z"] }

/-- C6 amended: the resolved name is marked in the visiting set only for the
    span of the dependency phase — the depRun snapshot carries the mark and
    the dependency bodies run with it set, while pre-hooks, the task's own
    body and post-hooks run with the name unmarked (c6_counterexample).  What
    does hold in general is monotonicity: a name in the visiting set when an
    invocation starts is still in it whenever the invocation returns, which
    is what keeps the circular check sound across nested runs. -/
theorem c6_visiting_dep_scope :
    (∀ (c : Config) (w : World) (fuel : Nat) (x n : String) (o : RunOptions)
      (st : ExecState) (r : Except RunErr Unit) (st' : ExecState),
      runCommandWithVisited c w fuel n o st = some (r, st') →
      x ∈ st.visiting → x ∈ st'.visiting) ∧
    Ev.depRun "t" "a" ["t"] ∈ tTrace ∧
    ("t" : String) ∈ ["t"] ∧
    Ev.bodyAttempt "a" 1 ["t"] "/orig" ∈ tTrace := by
  refine ⟨?_, by decide, by decide, by decide⟩
  intro c w fuel x n o st r st' h hx
  exact runCmd_visiting_mono c w fuel x n o st r st' h hx

/-- Witness: a successful invocation started while z was visiting returns
    with z still visiting. -/
theorem c6_visiting_dep_scope_witness :
    ("z" : String) ∈ ({ visiting := ["z"], cwd := "/orig", env := [],
                        cache := [("t:src", "/orig")], execCount := 1,
                        trace := [Ev.bodyAttempt "t" 1 ["z"] "/orig", Ev.execLine "b" true,
                          Ev.cacheUpdated "t" "t:src" "/orig" "/orig"] } : ExecState).visiting :=
  c6_visiting_dep_scope.1 yCfg wT 1 "z" "t" {} stZ (Except.ok ()) _ (by decide) (by decide)

theorem lookupStr_map_set (k v : String) :
    ∀ l : List (String × String), l.any (fun p => p.1 = k) = true →
      lookupStr k (l.map (fun p => if p.1 = k then (k, v) else p)) = some v := by
  intro l
  induction l with
  | nil => intro hany; simp at hany
  | cons p rest ih =>
    intro hany
    simp only [List.map_cons]
    by_cases hp : p.1 = k
    · rw [if_pos hp]
      simp [lookupStr]
    · rw [if_neg hp]
      rw [lookupStr]
      rw [if_neg (fun he => hp he.symm)]
      apply ih
      simp only [List.any_cons] at hany
      rcases Bool.or_eq_true_iff.mp hany with h1 | h1
      · exact absurd (by simpa using h1) hp
      · exact h1

theorem lookupStr_append_new (k v : String) :
    ∀ l : List (String × String), l.any (fun p => p.1 = k) = false →
      lookupStr k (l ++ [(k, v)]) = some v := by
  intro l
  induction l with
  | nil => intro _; simp [lookupStr]
  | cons p rest ih =>
    intro hany
    simp only [List.any_cons, Bool.or_eq_false_iff] at hany
    rw [List.cons_append, lookupStr]
    rw [if_neg (fun he => by simp [he.symm] at hany)]
    exact ih (by simpa using hany.2)

theorem lookupStr_setAssoc (l : List (String × String)) (k v : String) :
    lookupStr k (setAssoc l k v) = some v := by
  rw [setAssoc]
  split
  case isTrue hany => exact lookupStr_map_set k v l hany
  case isFalse hany => exact lookupStr_append_new k v l (Bool.eq_false_iff.mpr hany)

theorem checkIfChanged_false_lookup (w : World) (s : ExecState) (name : String)
    (pats : List String) (h : checkIfChanged w s name pats = false) :
    lookupStr (cacheKey name pats) s.cache = some (w.hashFiles s.cwd pats) := by
  rw [checkIfChanged] at h
  split at h
  case h_1 cached heq =>
    split at h
    case isTrue hc => rw [heq, hc]
    case isFalse => cases h
  case h_2 => cases h

theorem checkIfChanged_false_of_lookup (w : World) (s : ExecState) (name : String)
    (pats : List String)
    (h : lookupStr (cacheKey name pats) s.cache = some (w.hashFiles s.cwd pats)) :
    checkIfChanged w s name pats = false := by
  rw [checkIfChanged]
  simp [h]

theorem afterBody_cache {runF : RunF} (hF : PreservesCwd runF)
    (c : Config) (w : World) (rname : String) (cmd : Command) (opts : RunOptions)
    (lastErr : Option RunErr) (s1 s' : ExecState)
    (hif : cmd.ifChanged ≠ []) (hdr : opts.dryRun = false)
    (h : afterBody runF c w rname cmd opts lastErr s1 = some (Except.ok (), s')) :
    lookupStr (cacheKey rname cmd.ifChanged) s'.cache =
      some (w.hashFiles s1.cwd cmd.ifChanged) ∧ s'.cwd = s1.cwd := by
  rw [afterBody] at h
  split at h
  case h_1 heq => cases h
  case h_2 sx heq =>
    have hx : sx.cwd = s1.cwd := by
      split at heq
      · exact runPostHooks_cwd hF cmd.post rname opts s1 sx heq
      · cases heq
        rfl
    split at h
    · simp at h
    · rw [if_pos ⟨hif, by simp [hdr]⟩] at h
      cases h
      constructor
      · show lookupStr (cacheKey rname cmd.ifChanged)
          (setAssoc sx.cache (cacheKey rname cmd.ifChanged)
            (w.hashFiles sx.cwd cmd.ifChanged)) = _
        rw [lookupStr_setAssoc, hx]
      · show sx.cwd = s1.cwd
        exact hx

theorem finishAfterDir_cache {runF : RunF} (hF : PreservesCwd runF)
    (c : Config) (w : World) (rname : String) (cmd : Command) (runCommands : List String)
    (extraVars : List (String × String)) (opts : RunOptions) (s s' : ExecState)
    (hif : cmd.ifChanged ≠ []) (hdr : opts.dryRun = false)
    (h : finishAfterDir runF c w rname cmd runCommands extraVars opts s =
      some (Except.ok (), s')) :
    lookupStr (cacheKey rname cmd.ifChanged) s'.cache =
      some (w.hashFiles s.cwd cmd.ifChanged) ∧ s'.cwd = s.cwd := by
  rw [finishAfterDir] at h
  split at h
  · simp at h
  · split at h
    · simp at h
    · obtain ⟨h1, h2⟩ := afterBody_cache hF c w rname cmd opts _ _ _ hif hdr h
      rw [attemptLoop_cwd] at h1 h2
      exact ⟨h1, h2⟩

theorem afterEnv_cache {runF : RunF} (hF : PreservesCwd runF)
    (c : Config) (w : World) (rname : String) (cmd : Command) (runCommands : List String)
    (opts : RunOptions) (s2 s' : ExecState)
    (hif : cmd.ifChanged ≠ []) (hdr : opts.dryRun = false) (hdir : cmd.dir = "")
    (h : afterEnv runF c w rname cmd runCommands opts s2 = some (Except.ok (), s')) :
    lookupStr (cacheKey rname cmd.ifChanged) s'.cache =
      some (w.hashFiles s2.cwd cmd.ifChanged) ∧ s'.cwd = s2.cwd := by
  rw [afterEnv, if_pos hdir] at h
  exact finishAfterDir_cache hF c w rname cmd runCommands _ opts s2 s' hif hdr h

theorem finishRun_cache {runF : RunF} (hF : PreservesCwd runF)
    (c : Config) (w : World) (rname : String) (cmd : Command) (runCommands : List String)
    (opts : RunOptions) (s s' : ExecState)
    (hif : cmd.ifChanged ≠ []) (hdr : opts.dryRun = false) (hdir : cmd.dir = "")
    (h : finishRun runF c w rname cmd runCommands opts s = some (Except.ok (), s')) :
    lookupStr (cacheKey rname cmd.ifChanged) s'.cache =
      some (w.hashFiles s.cwd cmd.ifChanged) ∧ s'.cwd = s.cwd := by
  rw [finishRun] at h
  obtain ⟨h1, h2⟩ := afterEnv_cache hF c w rname cmd runCommands opts _ s' hif hdr hdir h
  rw [applyEnvList_cwd, applyEnvList_cwd] at h1 h2
  exact ⟨h1, h2⟩

/-- C10, amended: any invocation of a task with change patterns whose body
    path completes successfully and whose dry-run flag is false leaves the
    task's cache entry equal to the fingerprint — with no condition on the
    force or is-dependency flags, even though those flags skip the gate
    itself; the skip-path also satisfies this, since it requires the entry to
    match already.  For a task with NO declared working directory the
    fingerprint is taken at the caller's directory, so a later unforced
    top-level run from the final state of the first skips the body with a
    single skippedUnchanged event.  (With a declared directory the persisted
    fingerprint is taken from the task directory while the gate reads from
    the caller's, and the skip generally does not happen: c10_counterexample.) -/
theorem c10_cache_update_and_skip (c : Config) (w : World) (fuel : Nat) (n : String)
    (opts : RunOptions) (s : ExecState) (cmd : Command) (s1 : ExecState)
    (hlook : lookupStr (c.ResolveCommandName n) c.commands = some cmd)
    (hif : cmd.ifChanged ≠ []) (hdr : opts.dryRun = false) (hdir : cmd.dir = "")
    (h : runCommandWithVisited c w (fuel + 1) n opts s = some (Except.ok (), s1)) :
    (lookupStr (cacheKey (c.ResolveCommandName n) cmd.ifChanged) s1.cache =
      some (w.hashFiles s.cwd cmd.ifChanged) ∧ s1.cwd = s.cwd) ∧
    (∀ (opts2 : RunOptions) (fuel2 : Nat),
      opts2.force = false → opts2.dryRun = false → opts2.isDependency = false →
      c.ResolveCommandName n ∉ s1.visiting →
      cmd.run.getForCurrentPlatform w.goos ≠ [] →
      runCommandWithVisited c w (fuel2 + 1) n opts2 s1 =
        some (Except.ok (), emit s1 (Ev.skippedUnchanged (c.ResolveCommandName n)))) := by
  have hA : lookupStr (cacheKey (c.ResolveCommandName n) cmd.ifChanged) s1.cache =
      some (w.hashFiles s.cwd cmd.ifChanged) ∧ s1.cwd = s.cwd := by
    rw [runCommandWithVisited] at h
    split at h
    · simp at h
    · split at h
      case h_1 heq => rw [heq] at hlook; cases hlook
      case h_2 cmd' heq =>
        rw [heq] at hlook
        injection hlook with hc
        subst hc
        split at h
        · simp at h
        · split at h
          case isTrue hcond =>
            cases h
            refine ⟨?_, rfl⟩
            exact checkIfChanged_false_lookup w s _ _ hcond.2.2.2.2
          case isFalse =>
            split at h
            case h_1 => cases h
            case h_2 e s3 hpre => simp at h
            case h_3 u s3 hpre =>
              split at h
              case h_1 => cases h
              case h_2 e2 s6 hdep => simp at h
              case h_3 u2 s6 hdep =>
                obtain ⟨h1, h2⟩ := finishRun_cache (runCmd_cwd c w fuel) c w _ cmd'
                  (cmd'.run.getForCurrentPlatform w.goos) opts s6 s1 hif hdr hdir h
                have hc6 : s6.cwd = s.cwd :=
                  (depPhase_cwd (runCmd_cwd c w fuel) c _ cmd' opts s3 _ s6 hdep).trans
                    (prePhase_cwd (runCmd_cwd c w fuel) c w _ cmd' opts s _ s3 hpre)
                rw [hc6] at h1 h2
                exact ⟨h1, h2⟩
  refine ⟨hA, ?_⟩
  intro opts2 fuel2 hf2 hd2 hdep2 hvis2 hrun2
  rw [runCommandWithVisited]
  rw [if_neg hvis2]
  simp only [hlook]
  rw [if_neg hrun2]
  rw [if_pos ⟨hif, by simp [hf2], by simp [hd2], by simp [hdep2],
    checkIfChanged_false_of_lookup w s1 _ cmd.ifChanged (by rw [hA.2]; exact hA.1)⟩]

/-- The dir-declaring change-pattern task of the cache counterexample. -/
def xCfg : Config :=
  { configDir := "/cfg",
    commands :=
      [("t", { run := { runDefault := ["b"] }, dir := "sub", ifChanged := ["src"] })] }

/-- Two files named src, one under the original directory and one under the
    task directory, with different modification times. -/
def fsX : List FileEntry :=
  [{ path := "/orig/src", modTimeStr := "t1" }, { path := "/cfg/sub/src", modTimeStr := "t2" }]

/-- The world whose fingerprints are real hashMatchingFiles digests over
    fsX: the fingerprint taken from /orig and the one taken from /cfg/sub
    hash different path+mtime streams. -/
def wX : World := { hashFiles := hashMatchingFiles fsX }

/-- C10 counterexample: for the dir-declaring task, running twice in an
    unchanged world re-executes the body both times and never skips — the
    first run persisted a fingerprint taken from the task directory /cfg/sub
    while the second run's gate recomputes it from the caller's /orig, so
    the cached value never matches and the claimed later-run skip does not
    happen. -/
theorem c10_counterexample :
    ((runCommandWithVisited xCfg wX 2 "t" {} st0).bind
        (fun p => runCommandWithVisited xCfg wX 2 "t" {} p.2)).map
      (fun p => (p.1, p.2.trace.count (Ev.bodyAttempt "t" 1 [] "/cfg/sub"),
        p.2.trace.count (Ev.skippedUnchanged "t"))) = some (Except.ok (), 2, 0) := by
  decide

/-- The final state of the first yCfg run, literally. -/
def yS1 : ExecState :=
  { visiting := [], cwd := "/orig", env := [], cache := [("t:src", "/orig")],
    execCount := 1,
    trace := [Ev.bodyAttempt "t" 1 [] "/orig", Ev.execLine "b" true,
      Ev.cacheUpdated "t" "t:src" "/orig" "/orig"] }

/-- The task record of yCfg. -/
def yCmd : Command := { run := { runDefault := ["b"] }, ifChanged := ["src"] }

/-- Witness: after the recorded successful first run of the dir-less task,
    an identical second run skips the body with a single skippedUnchanged
    event. -/
theorem c10_cache_update_and_skip_witness :
    runCommandWithVisited yCfg wT 1 "t" {} yS1 =
      some (Except.ok (), emit yS1 (Ev.skippedUnchanged (yCfg.ResolveCommandName "t"))) :=
  (c10_cache_update_and_skip yCfg wT 0 "t" {} st0 yCmd yS1 (by decide) (by decide) rfl rfl
    (by decide)).2 {} 0 rfl rfl rfl (by decide) (by decide)

end ImLazy










